import Mathlib

/-!
Verification of the dpll-rs SAT solving engine.

This file gives a shallow embedding of the repository's core (the clause
loader in clause.rs, the plain formula engine Cnf in cnf.rs, the
graph-augmented engine CnfGraph in cnf_graph.rs, the assignment tracker and
plain driver in dpll.rs, and the learning driver in cfcl.rs), and settles a
list of claims about it.

Hash containers (HashMap / HashSet) are modelled as association lists and
lists in insertion order; this fixes one concrete iteration order, which the
Rust containers leave unspecified.  The one source of genuine randomness,
rand::thread_rng inside Cnf::next_guess, is modelled by an explicit choice
oracle passed as a parameter.  Rust panics (vector indexing out of bounds,
failed assertions) are modelled as an explicit panic outcome, and unbounded
loops and recursion take a fuel parameter with an explicit fuel-exhaustion
outcome.
-/

/-- The literal model.  Modelled from the spec: the source file lit.rs is
referenced by lib.rs but is not part of the provided sources.  Per spec
section 4.1, a literal is an integer variable index (0-based, derived from a
1-based external id) plus a polarity bit. -/
structure Lit where
  index : Nat
  positive : Bool
deriving DecidableEq, Repr

/-- Modelled from the spec: negation flips polarity only (lit.rs missing). -/
def Lit.neg (l : Lit) : Lit := ⟨l.index, !l.positive⟩

/-- Modelled from the spec: the dense non-negative code used to size and
index per-literal caches of size 2 * max_variable + 2 (lit.rs missing). -/
def Lit.code (l : Lit) : Nat := 2 * l.index + (if l.positive then 0 else 1)

/-- Modelled from the spec: construction from a signed external identifier;
the magnitude minus one is the variable index, the sign is the polarity, and
the value 0 is invalid input that must fail (lit.rs missing). -/
def Lit.fromDimacs (v : Int) : Option Lit :=
  if v = 0 then none
  else if 0 < v then some ⟨v.toNat - 1, true⟩
  else some ⟨(-v).toNat - 1, false⟩

/-! ### Association-list and list-set helpers

HashMap is modelled as an association list in insertion order with unique
keys; HashSet as a duplicate-free list in insertion order. -/

/-- HashMap lookup. -/
def alookup {κ α : Type} [DecidableEq κ] (k : κ) : List (κ × α) → Option α
  | [] => none
  | (k', v) :: t => if k' = k then some v else alookup k t

/-- HashMap insert (replace the binding if the key is present, otherwise
append). -/
def aupdate {κ α : Type} [DecidableEq κ] (k : κ) (v : α) :
    List (κ × α) → List (κ × α)
  | [] => [(k, v)]
  | (k', v') :: t => if k' = k then (k, v) :: t else (k', v') :: aupdate k v t

/-- HashMap remove. -/
def aerase {κ α : Type} [DecidableEq κ] (k : κ) (l : List (κ × α)) :
    List (κ × α) :=
  l.filter (fun p => p.1 ≠ k)

/-- HashSet insert. -/
def sinsert {α : Type} [DecidableEq α] (a : α) (l : List α) : List α :=
  if a ∈ l then l else l ++ [a]

/-- HashSet remove. -/
def serase {α : Type} [DecidableEq α] (a : α) (l : List α) : List α :=
  l.filter (fun b => b ≠ a)

/-- Deduplicate a list into a set, keeping first occurrences
(`collect::<HashSet<_>>()`). -/
def mkSet {α : Type} [DecidableEq α] (l : List α) : List α :=
  l.foldl (fun s a => sinsert a s) []

/-! ### Clause / Formula container (clause.rs) -/

/-- `Clause::from`: convert a list of signed integers to literals; fails on a
zero literal. -/
def clauseFromInts (c : List Int) : Option (List Lit) :=
  c.foldr (fun v acc => match Lit.fromDimacs v, acc with
    | some l, some t => some (l :: t)
    | _, _ => none) (some [])

/-- `Clauses`: parsed clause list, distinct-variable count, maximum variable
magnitude (clause.rs line 36). -/
structure Clauses where
  clauses : List (List Lit)
  nVars : Nat
  maxVar : Nat
deriving DecidableEq, Repr

/-- `Clauses::from` (clause.rs lines 38-54): collect the set of variable
magnitudes and their maximum, then parse every clause. -/
def clausesFrom (f : List (List Int)) : Option Clauses :=
  let varsMap := f.foldl (fun s c => c.foldl (fun s v => sinsert v.natAbs s) s) []
  let maxV := f.foldl (fun m c => c.foldl (fun m v => Nat.max m v.natAbs) m) 0
  match f.foldr (fun c acc => match clauseFromInts c, acc with
    | some cl, some t => some (cl :: t)
    | _, _ => none) (some []) with
  | some cls => some ⟨cls, varsMap.length, maxV⟩
  | none => none

/-! ### Outcomes

Fallible driver code returns `Res`: `ok` for Rust `Ok`, `err` for Rust
`Err(usize)`, `panic` for a Rust panic (index out of bounds, failed assert),
`fuelOut` when the modelling fuel for a loop or recursion runs out. -/

inductive Res (α : Type) where
  | ok (a : α)
  | err (e : Nat)
  | panic
  | fuelOut
deriving DecidableEq, Repr

/-- The sentinel usize::MAX used by the drivers as the generic
unsatisfiability error. -/
def umax : Nat := 2 ^ 64 - 1

/-! ### Formula engine, Variant A (cnf.rs) -/

/-- The plain formula engine `Cnf` (cnf.rs lines 8-21). -/
structure Cnf where
  nLit : Nat
  nClause : Nat
  clauses : List (Nat × List Lit)
  occurrences : List (Lit × List Nat)
  units : List Nat
deriving DecidableEq, Repr

/-- `Cnf::new` (cnf.rs lines 34-43). -/
def Cnf.new (nLit nClause : Nat) : Cnf := ⟨nLit, nClause, [], [], []⟩

/-- `Cnf::num_clause` (cnf.rs lines 45-47). -/
def Cnf.numClause (c : Cnf) : Nat := c.clauses.length

/-- `Cnf::add_clause` (cnf.rs lines 49-66): deduplicate the literals, use the
current map size as the clause id, index every literal, record a unit. -/
def Cnf.addClause (cnf : Cnf) (clause : List Lit) : Cnf :=
  let cl := mkSet clause
  let cid := cnf.clauses.length
  let occ := cl.foldl
    (fun occ l => aupdate l (sinsert cid ((alookup l occ).getD [])) occ)
    cnf.occurrences
  let units := if cl.length = 1 then sinsert cid cnf.units else cnf.units
  { cnf with
    occurrences := occ
    units := units
    clauses := aupdate cid cl cnf.clauses }

/-- `Cnf::from` (cnf.rs lines 23-31). -/
def Cnf.fromClauses (v : Clauses) : Cnf :=
  v.clauses.foldl Cnf.addClause (Cnf.new v.nVars v.clauses.length)

/-- Body of the loop of `Cnf::remove_positive` (cnf.rs lines 109-120):
remove each clause that contains the now-true literal and erase its id from
the occurrence entries of its other literals. -/
def Cnf.removePositiveGo (ids : List Nat) (cnf : Cnf) : Cnf :=
  match ids with
  | [] => cnf
  | cid :: rest =>
    match alookup cid cnf.clauses with
    | none => Cnf.removePositiveGo rest cnf
    | some clause =>
      let cnf := { cnf with clauses := aerase cid cnf.clauses }
      let occ := clause.foldl (fun occ l =>
        match alookup l occ with
        | none => occ
        | some s => aupdate l (serase cid s) occ) cnf.occurrences
      Cnf.removePositiveGo rest
        { cnf with
          occurrences := occ
          nClause := cnf.nClause - 1
          units := serase cid cnf.units }

/-- `Cnf::remove_positive` (cnf.rs lines 106-122). -/
def Cnf.removePositive (cnf : Cnf) (l : Lit) : Cnf :=
  match alookup l cnf.occurrences with
  | none => cnf
  | some occurs =>
    Cnf.removePositiveGo occurs
      { cnf with occurrences := aerase l cnf.occurrences }

/-- Body of the loop of `Cnf::remove_negation` (cnf.rs lines 130-145):
remove the falsified literal from each clause containing it; an emptied
clause is a conflict (and, per the early return, is not reinserted); a
clause shrunk to one literal joins the unit worklist. -/
def Cnf.removeNegationGo (l : Lit) (ids : List Nat) (cnf : Cnf) :
    Option Nat × Cnf :=
  match ids with
  | [] => (none, cnf)
  | cid :: rest =>
    match alookup cid cnf.clauses with
    | none => Cnf.removeNegationGo l rest cnf
    | some clause =>
      let cnf := { cnf with clauses := aerase cid cnf.clauses }
      let clause := serase l clause
      if clause.length = 0 then (some cid, cnf)
      else
        let cnf := if clause.length = 1 then
          { cnf with units := sinsert cid cnf.units } else cnf
        Cnf.removeNegationGo l rest
          { cnf with clauses := aupdate cid clause cnf.clauses }

/-- `Cnf::remove_negation` (cnf.rs lines 126-148).  The state paired with
the result is the formula at the moment the function returns. -/
def Cnf.removeNegation (cnf : Cnf) (l : Lit) : Option Nat × Cnf :=
  match alookup l cnf.occurrences with
  | none => (none, cnf)
  | some occurs =>
    Cnf.removeNegationGo l occurs
      { cnf with occurrences := aerase l cnf.occurrences }

/-- `Cnf::propagation` (cnf.rs lines 101-104). -/
def Cnf.propagation (cnf : Cnf) (l : Lit) : Option Nat × Cnf :=
  (cnf.removePositive l).removeNegation l.neg

/-- `Cnf::unit_propagation` (cnf.rs lines 70-85).  The `assert!` that the
clause is a unit is modelled as a panic outcome. -/
def Cnf.unitPropagation (cnf : Cnf) (cid : Nat) : Res (Option Lit × Cnf) :=
  match alookup cid cnf.clauses with
  | none => .ok (none, cnf)
  | some clause =>
    let cnf := { cnf with
      clauses := aerase cid cnf.clauses
      nClause := cnf.nClause - 1 }
    match clause with
    | [l] =>
      match cnf.propagation l with
      | (some cid', _) => .err cid'
      | (none, cnf') => .ok (some l, cnf')
    | _ => .panic

/-- `Cnf::unit_propagations` (cnf.rs lines 87-97): pop unit ids until the
worklist is empty, collecting the propagated literals in order. -/
def Cnf.unitPropagations (fuel : Nat) (cnf : Cnf) : Res (List Lit × Cnf) :=
  match fuel with
  | 0 => .fuelOut
  | fuel + 1 =>
    match cnf.units with
    | [] => .ok ([], cnf)
    | cid :: _ =>
      match cnf.unitPropagation cid with
      | .err e => .err e
      | .panic => .panic
      | .fuelOut => .fuelOut
      | .ok (optLit, cnf') =>
        match Cnf.unitPropagations fuel
            { cnf' with units := serase cid cnf'.units } with
        | .ok (lits, cnf'') =>
          .ok ((match optLit with | some l => l :: lits | none => lits), cnf'')
        | .err e => .err e
        | .panic => .panic
        | .fuelOut => .fuelOut

/-- The branching strategies (lib.rs lines 17-21). -/
inductive Strategy where
  | direct
  | random
deriving DecidableEq, Repr

/-- `Cnf::next_guess` (cnf.rs lines 180-184): the strategy argument is
ignored and a pseudo-random element of the occurrence key set is returned;
the random choice is modelled by the oracle `σ`. -/
def Cnf.nextGuess (σ : List Lit → Option Lit) (cnf : Cnf) (_s : Strategy) :
    Option Lit :=
  σ (cnf.occurrences.map Prod.fst)

/-! ### Partial assignment tracker (dpll.rs lines 5-44) -/

/-- `PartialSolution`: a truth value per variable index plus the set of
still-unassigned indices. -/
structure PartialSolution where
  solution : List (Option Bool)
  unSolved : List Nat
deriving DecidableEq, Repr

/-- `PartialSolution::new` (dpll.rs lines 12-17). -/
def PartialSolution.new (nLit : Nat) : PartialSolution :=
  ⟨List.replicate nLit none, List.range nLit⟩

/-- `PartialSolution::assign_lit` (dpll.rs lines 19-22).  The vector write
`solution[lit.index()]` panics when the index is out of bounds, modelled by
`none`. -/
def PartialSolution.assignLit (s : PartialSolution) (l : Lit) :
    Option PartialSolution :=
  if l.index < s.solution.length then
    some ⟨s.solution.set l.index (some l.positive), serase l.index s.unSolved⟩
  else none

/-- `PartialSolution::is_solved` (dpll.rs lines 24-26). -/
def PartialSolution.isSolved (s : PartialSolution) : Bool :=
  s.unSolved.isEmpty

/-- Whether the tracked assignment makes a literal true. -/
def PartialSolution.satLit (s : PartialSolution) (l : Lit) : Bool :=
  (s.solution.getD l.index none) = some l.positive

/-- Assign a list of literals in order (the loops of dpll.rs lines 58-60 and
69-72 and the single assignments of the drivers), propagating the potential
panic. -/
def assignAll (s : PartialSolution) : List Lit → Option PartialSolution
  | [] => some s
  | l :: t => match s.assignLit l with
    | none => none
    | some s' => assignAll s' t

/-! ### Plain search driver (dpll.rs lines 46-111) -/

/-- The pure-literal list of dpll.rs lines 63-68: occurrence keys whose
complement has no entry. -/
def pureLits (cnf : Cnf) : List Lit :=
  (cnf.occurrences.map Prod.fst).filter
    (fun l => (alookup l.neg cnf.occurrences).isNone)

/-- The pure-literal elimination loop of dpll.rs lines 69-72: assign each
pure literal true and propagate it. -/
def purePropagate : List Lit → Cnf → PartialSolution →
    Res (Cnf × PartialSolution)
  | [], cnf, sol => .ok (cnf, sol)
  | l :: t, cnf, sol =>
    match sol.assignLit l with
    | none => .panic
    | some sol' =>
      match cnf.propagation l with
      | (some cid, _) => .err cid
      | (none, cnf') => purePropagate t cnf' sol'

/-- `_dpll` (dpll.rs lines 51-111), with explicit recursion fuel and the
random branching choice supplied by the oracle `σ`. -/
def dpllAux (σ : List Lit → Option Lit) :
    Nat → Cnf → PartialSolution → Res PartialSolution
  | 0, _, _ => .fuelOut
  | fuel + 1, cnf, sol =>
    if cnf.clauses.isEmpty then .ok sol
    else
      match Cnf.unitPropagations (fuel + 1) cnf with
      | .err e => .err e
      | .panic => .panic
      | .fuelOut => .fuelOut
      | .ok (unitLits, cnf) =>
        match assignAll sol unitLits with
        | none => .panic
        | some sol =>
          match purePropagate (pureLits cnf) cnf sol with
          | .err e => .err e
          | .panic => .panic
          | .fuelOut => .fuelOut
          | .ok (cnf, sol) =>
            if cnf.occurrences.isEmpty then
              if cnf.numClause = 0 then .ok sol else .err umax
            else
              match cnf.nextGuess σ .direct with
              | none => .err umax
              | some guess =>
                match sol.assignLit guess with
                | none => .panic
                | some sol' =>
                  match cnf.propagation guess with
                  | (some cid, _) => .err cid
                  | (none, cnf') =>
                    if cnf'.clauses.isEmpty ∧ cnf'.occurrences.isEmpty then
                      .ok sol'
                    else
                      match dpllAux σ fuel cnf' sol' with
                      | .ok s => .ok s
                      | .panic => .panic
                      | .fuelOut => .fuelOut
                      | .err _ =>
                        match cnf.propagation guess.neg with
                        | (some cid, _) => .err cid
                        | (none, cnf'') =>
                          match sol.assignLit guess.neg with
                          | none => .panic
                          | some sol'' => dpllAux σ fuel cnf'' sol''

/-- `dpll` (dpll.rs lines 46-49): build the fresh tracker sized by the
distinct-variable count and run the recursive search.  The Rust function
also hands back the &mut Cnf it was given; only the solution payload is kept
here. -/
def dpll (σ : List Lit → Option Lit) (fuel : Nat) (cnf : Cnf) :
    Res PartialSolution :=
  dpllAux σ fuel cnf (PartialSolution.new cnf.nLit)

/-- Run the plain driver on a raw clause list: load it (a zero literal is a
failed load, modelled as a panic per the spec's InvalidLiteral condition),
build the formula and search. -/
def dpllRun (σ : List Lit → Option Lit) (fuel : Nat) (f : List (List Int)) :
    Res PartialSolution :=
  match clausesFrom f with
  | none => .panic
  | some cls => dpll σ fuel (Cnf.fromClauses cls)

/-- The head-of-list choice oracle, one concrete resolution of
rand::thread_rng. -/
def headOracle (l : List Lit) : Option Lit := l.head?

/-- The last-of-list choice oracle, another concrete resolution of
rand::thread_rng. -/
def lastOracle (l : List Lit) : Option Lit := l.getLast?

/-! ### Formula engine, Variant B (cnf_graph.rs) -/

/-- `FakeHashSet` (cnf_graph.rs lines 11-65): a literal-to-flag map plus a
stored element count; `remove` only flips the flag to false, so `all` still
sees removed literals.  The count is updated exactly as the source does
(always incremented on insert, always decremented on remove). -/
structure FakeHashSet where
  inner : List (Lit × Bool)
  num : Nat
deriving DecidableEq, Repr

/-- `FakeHashSet::insert` (cnf_graph.rs lines 25-28). -/
def FakeHashSet.insert (s : FakeHashSet) (l : Lit) : FakeHashSet :=
  ⟨aupdate l true s.inner, s.num + 1⟩

/-- `FakeHashSet::remove` (cnf_graph.rs lines 30-33). -/
def FakeHashSet.remove (s : FakeHashSet) (l : Lit) : FakeHashSet :=
  ⟨aupdate l false s.inner, s.num - 1⟩

/-- `FakeHashSet::len` (cnf_graph.rs lines 39-41). -/
def FakeHashSet.len (s : FakeHashSet) : Nat := s.num

/-- `FakeHashSet::iter` (cnf_graph.rs lines 55-60): the still-valid
literals. -/
def FakeHashSet.iterValid (s : FakeHashSet) : List Lit :=
  (s.inner.filter (fun p => p.2)).map Prod.fst

/-- `FakeHashSet::all` (cnf_graph.rs lines 62-64): every literal ever
inserted, removed or not. -/
def FakeHashSet.all (s : FakeHashSet) : List Lit :=
  s.inner.map Prod.fst

/-- `FakeHashSet::from_set` (cnf_graph.rs lines 47-53). -/
def FakeHashSet.fromSet (l : List Lit) : FakeHashSet :=
  l.foldl FakeHashSet.insert ⟨[], 0⟩

/-- The graph-augmented formula engine `CnfGraph` (cnf_graph.rs lines
81-101).  The petgraph DiGraph is modelled by the node list (a node's index
is its position) and the edge list in insertion order; `nodes` is the
literal-code-indexed lookup table, with `none` for `NodeIndex::end()`. -/
structure CnfGraph where
  nLit : Nat
  maxLit : Nat
  nClause : Nat
  clauses : List (Nat × (FakeHashSet × Bool))
  occurrences : List (Lit × List Nat)
  units : List Nat
  graphNodes : List Lit
  graphEdges : List (Nat × Nat)
  nodes : List (Option Nat)
  guessed : List Lit
deriving DecidableEq, Repr

/-- `CnfGraph::new` (cnf_graph.rs lines 114-126). -/
def CnfGraph.new (nLit maxLit nClause : Nat) : CnfGraph :=
  ⟨nLit, maxLit, nClause, [], [], [], [], [],
    List.replicate (2 * maxLit + 2) none, []⟩

/-- `CnfGraph::num_clause` (cnf_graph.rs lines 127-129): count only the
still-valid clauses. -/
def CnfGraph.numClause (g : CnfGraph) : Nat :=
  (g.clauses.filter (fun p => p.2.2)).length

/-- `CnfGraph::add_clause` (cnf_graph.rs lines 131-149). -/
def CnfGraph.addClause (g : CnfGraph) (clause : List Lit) : CnfGraph :=
  let cl := mkSet clause
  let cid := g.clauses.length
  let occ := cl.foldl
    (fun occ l => aupdate l (sinsert cid ((alookup l occ).getD [])) occ)
    g.occurrences
  let units := if cl.length = 1 then sinsert cid g.units else g.units
  { g with
    occurrences := occ
    units := units
    clauses := aupdate cid (FakeHashSet.fromSet cl, true) g.clauses }

/-- `CnfGraph::from` (cnf_graph.rs lines 103-111). -/
def CnfGraph.fromClauses (v : Clauses) : CnfGraph :=
  v.clauses.foldl CnfGraph.addClause
    (CnfGraph.new v.nVars v.maxVar v.clauses.length)

/-- Lazily create the graph node for a literal (`self.nodes[lit.code()] ==
NodeIndex::end()` check followed by `add_node`, cnf_graph.rs lines 188-196
and 240-244).  Vec indexing is total here because every literal handled by
the engine has a code below 2 * max_lit + 2. -/
def CnfGraph.ensureNode (g : CnfGraph) (l : Lit) : CnfGraph :=
  match g.nodes.getD l.code none with
  | some _ => g
  | none =>
    { g with
      graphNodes := g.graphNodes ++ [l]
      nodes := g.nodes.set l.code (some g.graphNodes.length) }

/-- `contains_edge` followed by `add_edge` (cnf_graph.rs lines 245-251). -/
def CnfGraph.addEdgeOnce (g : CnfGraph) (a b : Nat) : CnfGraph :=
  if (a, b) ∈ g.graphEdges then g
  else { g with graphEdges := g.graphEdges ++ [(a, b)] }

/-- Body of the loop of `CnfGraph::remove_positive` (cnf_graph.rs lines
203-217): mark each clause containing the now-true literal invalid and erase
its id from the occurrence entries of its still-valid literals. -/
def CnfGraph.removePositiveGo (ids : List Nat) (g : CnfGraph) : CnfGraph :=
  match ids with
  | [] => g
  | cid :: rest =>
    match alookup cid g.clauses with
    | none => CnfGraph.removePositiveGo rest g
    | some (clause, valid) =>
      if valid then
        let g := { g with clauses := aupdate cid (clause, false) g.clauses }
        let occ := clause.iterValid.foldl (fun occ l =>
          match alookup l occ with
          | none => occ
          | some s => aupdate l (serase cid s) occ) g.occurrences
        CnfGraph.removePositiveGo rest
          { g with
            occurrences := occ
            nClause := g.nClause - 1
            units := serase cid g.units }
      else CnfGraph.removePositiveGo rest g

/-- `CnfGraph::remove_positive` (cnf_graph.rs lines 200-219). -/
def CnfGraph.removePositive (g : CnfGraph) (l : Lit) : CnfGraph :=
  match alookup l g.occurrences with
  | none => g
  | some occurs =>
    CnfGraph.removePositiveGo occurs
      { g with occurrences := aerase l g.occurrences }

/-- Variant-B step outcome, paired with the mutated formula state: the Rust
methods mutate `self` in place, so the state at the moment an `Err` is
returned is the state the caller's formula is left in (which is what the
learning driver reads). -/
inductive BOut where
  | ok
  | err (e : Nat)
  | panic
  | fuelOut
deriving DecidableEq, Repr

/-- Body of the loop of `CnfGraph::remove_negation` (cnf_graph.rs lines
228-265): take the clause out (ignoring its valid flag), remove the
falsified literal, record implication edges from the complement's node to
every remaining valid literal, reinsert the clause as valid, then report a
conflict if it became empty or enqueue it as a unit if one literal remains.
The panic branch models the explicit panic of cnf_graph.rs lines 235-237. -/
def CnfGraph.removeNegationGo (l : Lit) (ids : List Nat) (g : CnfGraph) :
    BOut × CnfGraph :=
  match ids with
  | [] => (.ok, g)
  | cid :: rest =>
    match alookup cid g.clauses with
    | none => CnfGraph.removeNegationGo l rest g
    | some (clause, _) =>
      let g := { g with clauses := aerase cid g.clauses }
      let clause := clause.remove l
      match g.nodes.getD l.neg.code none with
      | none => (.panic, g)
      | some litNode =>
        let g := clause.iterValid.foldl (fun g aff =>
          let g := g.ensureNode aff
          match g.nodes.getD aff.code none with
          | none => g
          | some affNode => g.addEdgeOnce litNode affNode) g
        let g := { g with clauses := aupdate cid (clause, true) g.clauses }
        if clause.len = 0 then (.err cid, g)
        else
          let g := if clause.len = 1 then
            { g with units := sinsert cid g.units } else g
          CnfGraph.removeNegationGo l rest g

/-- `CnfGraph::remove_negation` (cnf_graph.rs lines 223-268). -/
def CnfGraph.removeNegation (g : CnfGraph) (l : Lit) : BOut × CnfGraph :=
  match alookup l g.occurrences with
  | none => (.ok, g)
  | some occurs =>
    CnfGraph.removeNegationGo l occurs
      { g with occurrences := aerase l g.occurrences }

/-- `CnfGraph::propagation` (cnf_graph.rs lines 187-198): create the nodes
for the literal and its complement, remove the satisfied clauses, then
shrink the clauses containing the complement. -/
def CnfGraph.propagation (g : CnfGraph) (l : Lit) : BOut × CnfGraph :=
  let g := g.ensureNode l
  let g := g.removePositive l
  let g := g.ensureNode l.neg
  g.removeNegation l.neg

/-- `CnfGraph::unit_propagation` (cnf_graph.rs lines 153-171): a still-valid
clause is marked invalid, must be a unit (assert, modelled as panic), and
its single literal is propagated. -/
def CnfGraph.unitPropagation (g : CnfGraph) (cid : Nat) :
    BOut × Option Lit × CnfGraph :=
  match alookup cid g.clauses with
  | none => (.ok, none, g)
  | some (clause, valid) =>
    if valid then
      let g := { g with
        clauses := aupdate cid (clause, false) g.clauses
        nClause := g.nClause - 1 }
      if clause.len = 1 then
        match clause.iterValid with
        | [] => (.panic, none, g)
        | l :: _ =>
          match g.propagation l with
          | (.ok, g') => (.ok, some l, g')
          | (.err e, g') => (.err e, none, g')
          | (.panic, g') => (.panic, none, g')
          | (.fuelOut, g') => (.fuelOut, none, g')
      else (.panic, none, g)
    else (.ok, none, g)

/-- `CnfGraph::unit_propagations` (cnf_graph.rs lines 173-183). -/
def CnfGraph.unitPropagations (fuel : Nat) (g : CnfGraph) :
    BOut × List Lit × CnfGraph :=
  match fuel with
  | 0 => (.fuelOut, [], g)
  | fuel + 1 =>
    match g.units with
    | [] => (.ok, [], g)
    | cid :: _ =>
      match g.unitPropagation cid with
      | (.ok, optLit, g') =>
        (match CnfGraph.unitPropagations fuel
            { g' with units := serase cid g'.units } with
        | (.ok, lits, g'') =>
          (.ok, (match optLit with | some l => l :: lits | none => lits), g'')
        | (.err e, lits, g'') => (.err e, lits, g'')
        | (.panic, lits, g'') => (.panic, lits, g'')
        | (.fuelOut, lits, g'') => (.fuelOut, lits, g''))
      | (.err e, o, g') => (.err e, [], g')
      | (.panic, o, g') => (.panic, [], g')
      | (.fuelOut, o, g') => (.fuelOut, [], g')

/-- The minimum of a list of literals in the literal order (the first
element of the BTreeSet built by `CnfGraph::next_guess`); the literal total
order is modelled from the spec as the order of the dense codes. -/
def minCodeLit (ls : List Lit) : Option Lit :=
  ls.foldl (fun acc l => match acc with
    | none => some l
    | some m => if l.code < m.code then some l else some m) none

/-- `CnfGraph::next_guess` (cnf_graph.rs lines 301-318).  The `Direct`
strategy collects the occurrence keys into a BTreeSet and takes its first
element — the minimum in the literal order (modelled from the spec as the
order of the dense codes, lit.rs missing) — normalized to its positive form;
`Random` draws from the oracle like Variant A. -/
def CnfGraph.nextGuess (σ : List Lit → Option Lit) (g : CnfGraph)
    (s : Strategy) : Option Lit :=
  match s with
  | .direct =>
    (minCodeLit (g.occurrences.map Prod.fst)).map
      (fun l => if !l.positive then l.neg else l)
  | .random => σ (g.occurrences.map Prod.fst)

/-- `CnfGraph::make_guess` (cnf_graph.rs lines 320-322). -/
def CnfGraph.makeGuess (g : CnfGraph) (l : Lit) : CnfGraph :=
  { g with guessed := g.guessed ++ [l] }

/-! ### Conflict analysis (cnf_graph.rs lines 324-367) -/

/-- Outcome of `learn_from_conflict`: `res` is the Rust `Option<Clause>`
return value; `panic` models the out-of-bounds indexings `guessed[0]` and
`clauses[&clause_id]`, and handing `NodeIndex::end()` to petgraph. -/
inductive LRes where
  | panic
  | fuelOut
  | res (c : Option (List Lit))
deriving DecidableEq, Repr

/-- The walk of `learn_from_conflict` (cnf_graph.rs lines 346-362): pop a
frontier literal, skip it if already learned, otherwise fetch its graph
predecessors; if any predecessor is a non-root decision the literal joins
the learned cut, otherwise the predecessors join the frontier. -/
def CnfGraph.learnGo (g : CnfGraph) (special : List Lit) :
    Nat → List Lit → List Lit → LRes
  | 0, _, _ => .fuelOut
  | fuel + 1, queue, learned =>
    match queue with
    | [] => .res (some (learned.map Lit.neg))
    | lit :: qrest =>
      if lit ∈ learned then CnfGraph.learnGo g special fuel qrest learned
      else
        match g.nodes.getD lit.code none with
        | none => .panic
        | some litNode =>
          let parents := (g.graphEdges.filter (fun e => e.2 = litNode)).map
            (fun e => g.graphNodes.getD e.1 ⟨0, true⟩)
          if parents.any (fun p => p ∈ special) then
            CnfGraph.learnGo g special fuel qrest (learned ++ [lit])
          else
            CnfGraph.learnGo g special fuel
              (parents.foldl (fun q p => sinsert p q) qrest) learned

/-- `CnfGraph::learn_from_conflict` (cnf_graph.rs lines 324-367): the
diagnostic println first indexes `clauses[&clause_id]` (panics when the id
is absent), then `guessed[0]` is read (panics when no guess was recorded);
the frontier is seeded with the complements of every literal ever in the
conflicting clause minus the first decision, the learned set starts as the
first decision alone, and the final clause is the negation of the learned
set.  The function reads but never mutates the formula. -/
def CnfGraph.learnFromConflict (g : CnfGraph) (cid : Nat) (fuel : Nat) :
    LRes :=
  match alookup cid g.clauses with
  | none => .panic
  | some (clause, _) =>
    match g.guessed with
    | [] => .panic
    | root :: _ =>
      let special := serase root (mkSet g.guessed)
      let queue := serase root (mkSet (clause.all.map Lit.neg))
      CnfGraph.learnGo g special fuel queue [root]

/-! ### Learning search driver (cfcl.rs) -/

/-- The pure-literal list of cfcl.rs lines 28-33. -/
def cgPureLits (g : CnfGraph) : List Lit :=
  (g.occurrences.map Prod.fst).filter
    (fun l => (alookup l.neg g.occurrences).isNone)

/-- The pure-literal elimination loop of cfcl.rs lines 34-37. -/
def cgPurePropagate : List Lit → CnfGraph → PartialSolution →
    BOut × CnfGraph × PartialSolution
  | [], g, sol => (.ok, g, sol)
  | l :: t, g, sol =>
    match sol.assignLit l with
    | none => (.panic, g, sol)
    | some sol' =>
      match g.propagation l with
      | (.ok, g') => cgPurePropagate t g' sol'
      | (r, g') => (r, g', sol')

/-- The `propagate` helper of the learning driver (cfcl.rs lines 16-48):
unit propagation to fixpoint, assignment of the propagated literals,
pure-literal elimination, then the terminal test — note it returns plain
`Ok(())` both when the formula is solved and when work remains, leaving the
caller unable to distinguish the two. -/
def cfclPropagate (fuel : Nat) (g : CnfGraph) (sol : PartialSolution) :
    BOut × CnfGraph × PartialSolution :=
  if g.clauses.isEmpty then (.ok, g, sol)
  else
    match CnfGraph.unitPropagations fuel g with
    | (.ok, unitLits, g) =>
      (match assignAll sol unitLits with
      | none => (.panic, g, sol)
      | some sol =>
        match cgPurePropagate (cgPureLits g) g sol with
        | (.ok, g, sol) =>
          if g.occurrences.isEmpty then
            if g.numClause = 0 then (.ok, g, sol) else (.err umax, g, sol)
          else (.ok, g, sol)
        | r => r)
    | (r, _, g) => (r, g, sol)

/-- `_cfcl` (cfcl.rs lines 50-103), with explicit recursion fuel.  The tuple
result carries the Rust return value first, then the final states of the
three &mut parameters (formula, solution, learned-clause log). -/
def cfclAux (σ : List Lit → Option Lit) :
    Nat → CnfGraph → PartialSolution → List (List Lit) →
    Res PartialSolution × CnfGraph × PartialSolution × List (List Lit)
  | 0, g, sol, learnt => (.fuelOut, g, sol, learnt)
  | fuel + 1, g, sol, learnt =>
    match cfclPropagate (fuel + 1) g sol with
    | (.err e, g, sol) => (.err e, g, sol, learnt)
    | (.panic, g, sol) => (.panic, g, sol, learnt)
    | (.fuelOut, g, sol) => (.fuelOut, g, sol, learnt)
    | (.ok, g, sol) =>
      match g.nextGuess σ .direct with
      | none => (.err umax, g, sol, learnt)
      | some guess =>
        let saveG := g
        let saveSol := sol
        let g := g.makeGuess guess
        match sol.assignLit guess with
        | none => (.panic, g, sol, learnt)
        | some sol =>
          match g.propagation guess with
          | (.err e, g) => (.err e, g, sol, learnt)
          | (.panic, g) => (.panic, g, sol, learnt)
          | (.fuelOut, g) => (.fuelOut, g, sol, learnt)
          | (.ok, g) =>
            if g.clauses.isEmpty ∧ g.occurrences.isEmpty then
              (.ok sol, g, sol, learnt)
            else
              match cfclAux σ fuel g sol learnt with
              | (.ok s, g, sol, learnt) => (.ok s, g, sol, learnt)
              | (.panic, g, sol, learnt) => (.panic, g, sol, learnt)
              | (.fuelOut, g, sol, learnt) => (.fuelOut, g, sol, learnt)
              | (.err cid, g, sol, learnt) =>
                if cid = umax then (.err umax, g, sol, learnt)
                else
                  match g.learnFromConflict cid (fuel + 1) with
                  | .panic => (.panic, g, sol, learnt)
                  | .fuelOut => (.fuelOut, g, sol, learnt)
                  | .res oc =>
                    let learnt := match oc with
                      | some c => learnt ++ [c]
                      | none => learnt
                    let g := (saveG.makeGuess guess.neg)
                    let sol := saveSol
                    match g.propagation guess.neg with
                    | (.err e, g) => (.err e, g, sol, learnt)
                    | (.panic, g) => (.panic, g, sol, learnt)
                    | (.fuelOut, g) => (.fuelOut, g, sol, learnt)
                    | (.ok, g) =>
                      match sol.assignLit guess.neg with
                      | none => (.panic, g, sol, learnt)
                      | some sol =>
                        match cfclAux σ fuel g sol learnt with
                        | (.ok s, g, sol, learnt) => (.ok s, g, sol, learnt)
                        | (.panic, g, sol, learnt) => (.panic, g, sol, learnt)
                        | (.fuelOut, g, sol, learnt) =>
                          (.fuelOut, g, sol, learnt)
                        | (.err cid2, g, sol, learnt) =>
                          if cid2 = umax then (.err umax, g, sol, learnt)
                          else
                            match g.learnFromConflict cid2 (fuel + 1) with
                            | .panic => (.panic, g, sol, learnt)
                            | .fuelOut => (.fuelOut, g, sol, learnt)
                            | .res oc2 =>
                              let learnt := match oc2 with
                                | some c => learnt ++ [c]
                                | none => learnt
                              (.err cid2, g, sol, learnt)

/-- `cfcl` (cfcl.rs lines 5-14): run the recursive search with an empty
learned-clause log.  The first component is the Result value visible to the
caller (on success, the solution and the final formula state); the second is
the learned-clause log, which the Rust function only prints. -/
def cfcl (σ : List Lit → Option Lit) (fuel : Nat) (g : CnfGraph) :
    Res (PartialSolution × CnfGraph) × List (List Lit) :=
  match cfclAux σ fuel g (PartialSolution.new g.nLit) [] with
  | (.ok s, g, _, learnt) => (.ok (s, g), learnt)
  | (.err e, _, _, learnt) => (.err e, learnt)
  | (.panic, _, _, learnt) => (.panic, learnt)
  | (.fuelOut, _, _, learnt) => (.fuelOut, learnt)

/-- Run the learning driver on a raw clause list. -/
def cfclRun (σ : List Lit → Option Lit) (fuel : Nat) (f : List (List Int)) :
    Res (PartialSolution × CnfGraph) × List (List Lit) :=
  match clausesFrom f with
  | none => (.panic, [])
  | some cls => cfcl σ fuel (CnfGraph.fromClauses cls)

/-! ### Semantic notions used by the claims -/

/-- A total valuation makes a literal true when it gives the literal's
variable the literal's polarity. -/
def evalLit (A : Nat → Bool) (l : Lit) : Bool := A l.index == l.positive

/-- A raw integer clause is satisfied by a total valuation when one of its
literals is. -/
def evalClauseInts (A : Nat → Bool) (c : List Int) : Bool :=
  c.any (fun v => match Lit.fromDimacs v with
    | some l => evalLit A l
    | none => false)

/-- A raw clause list is satisfied when every clause is. -/
def evalFormula (A : Nat → Bool) (f : List (List Int)) : Bool :=
  f.all (evalClauseInts A)

/-- Every clause of the Variant-A database holds at least one literal
satisfying `S`. -/
def allSat (S : Lit → Prop) (c : Cnf) : Prop :=
  ∀ cid cl, alookup cid c.clauses = some cl → ∃ m ∈ cl, S m

/-- The tracker has a defined value for variable `i`. -/
def solDefined (sol : PartialSolution) (i : Nat) : Prop :=
  (sol.solution.getD i none).isSome

/-- One partial assignment extends another. -/
def PartialSolution.Extends (sol sol' : PartialSolution) : Prop :=
  ∀ i b, sol.solution.getD i none = some b →
    sol'.solution.getD i none = some b

/-- Every variable with a defined truth value has been fully propagated
away: no clause of the formula mentions it and neither of its occurrence
keys survives. -/
def varClean (c : Cnf) (sol : PartialSolution) : Prop :=
  ∀ i, solDefined sol i →
    (∀ cid cl, alookup cid c.clauses = some cl → ∀ m ∈ cl, m.index ≠ i) ∧
    (∀ b : Bool, alookup (⟨i, b⟩ : Lit) c.occurrences = none)

/-! ### Occurrence-index invariants and reachable states -/

/-- A clause id listed under a literal whose clause is still in the
Variant-A database contains the literal. -/
def occSound (c : Cnf) : Prop :=
  ∀ l ids cid cl, alookup l c.occurrences = some ids → cid ∈ ids →
    alookup cid c.clauses = some cl → l ∈ cl

/-- Every literal of every clause in the Variant-A database is indexed
under that clause's id. -/
def occComplete (c : Cnf) : Prop :=
  ∀ cid cl l, alookup cid c.clauses = some cl → l ∈ cl →
    ∃ ids, alookup l c.occurrences = some ids ∧ cid ∈ ids

/-- Clause keys are duplicate-free (Variant A). -/
def keysNodupA (c : Cnf) : Prop := (c.clauses.map Prod.fst).Nodup

/-- A clause id is bound exactly when it is below the database size
(Variant A). -/
def keysRangeA (c : Cnf) : Prop :=
  ∀ id : Nat, (alookup id c.clauses).isSome ↔ id < c.clauses.length

/-- Every id stored in the occurrence index is below the database size
(Variant A, construction phase). -/
def occIdsLt (c : Cnf) : Prop :=
  ∀ l ids, alookup l c.occurrences = some ids →
    ∀ id ∈ ids, id < c.clauses.length

/-- Variant-A formulas built by construction alone (`Cnf::new` followed by
`add_clause`, as `Cnf::from` does). -/
inductive BuiltA : Cnf → Prop where
  | base (n m : Nat) : BuiltA (Cnf.new n m)
  | add {c : Cnf} (cl : List Lit) : BuiltA c → BuiltA (c.addClause cl)

/-- Variant-A formulas reachable from a constructed formula by
Ok-returning propagation and unit-propagation operations. -/
inductive ReachA : Cnf → Prop where
  | ofBuilt {c : Cnf} : BuiltA c → ReachA c
  | prop {c c' : Cnf} (l : Lit) : ReachA c →
      c.propagation l = (none, c') → ReachA c'
  | unitP {c c' : Cnf} (cid : Nat) (ol : Option Lit) : ReachA c →
      c.unitPropagation cid = .ok (ol, c') → ReachA c'
  | unitPs {c c' : Cnf} (fuel : Nat) (ls : List Lit) : ReachA c →
      Cnf.unitPropagations fuel c = .ok (ls, c') → ReachA c'

/-- Clause keys are duplicate-free (Variant B). -/
def keysNodupB (g : CnfGraph) : Prop := (g.clauses.map Prod.fst).Nodup

/-- A clause id is bound exactly when it is below the database size
(Variant B). -/
def keysRangeB (g : CnfGraph) : Prop :=
  ∀ id : Nat, (alookup id g.clauses).isSome ↔ id < g.clauses.length

/-- Variant-B formula states reachable through the engine's mutating
operations, conflicting (Err) outcomes included; a panic aborts the Rust
program, so panicking outcomes end the formula's lifetime and are
excluded. -/
inductive ReachB : CnfGraph → Prop where
  | base (n m k : Nat) : ReachB (CnfGraph.new n m k)
  | add {g : CnfGraph} (cl : List Lit) : ReachB g → ReachB (g.addClause cl)
  | rp {g : CnfGraph} (l : Lit) : ReachB g → ReachB (g.removePositive l)
  | rn {g : CnfGraph} (l : Lit) : ReachB g →
      (g.removeNegation l).1 ≠ BOut.panic → ReachB (g.removeNegation l).2
  | prop {g : CnfGraph} (l : Lit) : ReachB g →
      (g.propagation l).1 ≠ BOut.panic → ReachB (g.propagation l).2
  | unitP {g : CnfGraph} (cid : Nat) : ReachB g →
      (g.unitPropagation cid).1 ≠ BOut.panic →
      ReachB (g.unitPropagation cid).2.2
  | unitPs {g : CnfGraph} (fuel : Nat) : ReachB g →
      (CnfGraph.unitPropagations fuel g).1 ≠ BOut.panic →
      ReachB (CnfGraph.unitPropagations fuel g).2.2
  | guess {g : CnfGraph} (l : Lit) : ReachB g → ReachB (g.makeGuess l)

/-- The clause-map key discipline shared by the engines: duplicate-free keys
that are exactly the ids below the map size. -/
def keysOkL {α : Type} (cl : List (Nat × α)) : Prop :=
  (cl.map Prod.fst).Nodup ∧
    ∀ id : Nat, (alookup id cl).isSome ↔ id < cl.length

/-- The state after one iteration of the `remove_positive` loop on clause
`cid` (clause binding erased, its id cleaned from the occurrence entries of
its literals, worklist eviction, counter decrement). -/
def rpStep (cid : Nat) (clause : List Lit) (c : Cnf) : Cnf :=
  { c with
    nClause := c.nClause - 1
    clauses := aerase cid c.clauses
    occurrences := clause.foldl (fun occ l =>
      match alookup l occ with
      | none => occ
      | some s => aupdate l (serase cid s) occ) c.occurrences
    units := serase cid c.units }

/-- The state after one non-conflicting iteration of the `remove_negation`
loop on clause `cid` (clause shrunk by the falsified literal and reinserted,
enqueued as a unit if one literal remains). -/
def rnStep (cid : Nat) (clause : List Lit) (l : Lit) (c : Cnf) : Cnf :=
  let c1 := { c with clauses := aerase cid c.clauses }
  let c2 := if (serase l clause).length = 1 then
    { c1 with units := sinsert cid c1.units } else c1
  { c2 with clauses := aupdate cid (serase l clause) c2.clauses }

/-! ### Basic lemmas about the container model -/

theorem headOracle_mem (ks : List Lit) (l : Lit) (h : headOracle ks = some l) :
    l ∈ ks := by
  cases ks with
  | nil => simp [headOracle] at h
  | cons a t =>
    simp [headOracle] at h
    simp [h]

theorem alookup_aupdate_self {κ α : Type} [DecidableEq κ] (k : κ) (v : α)
    (l : List (κ × α)) : alookup k (aupdate k v l) = some v := by
  induction l with
  | nil => simp [aupdate, alookup]
  | cons p t ih =>
    by_cases h : p.1 = k
    · simp [aupdate, h, alookup]
    · simp [aupdate, h, alookup, ih]

theorem alookup_aupdate_ne {κ α : Type} [DecidableEq κ] {k k' : κ} (v : α)
    (l : List (κ × α)) (h : k' ≠ k) :
    alookup k' (aupdate k v l) = alookup k' l := by
  have hne : ¬ k = k' := fun h' => h h'.symm
  induction l with
  | nil => simp [aupdate, alookup, hne]
  | cons p t ih =>
    obtain ⟨pk, pv⟩ := p
    by_cases hp : pk = k
    · subst hp
      simp [aupdate, alookup, hne]
    · simp [aupdate, hp, alookup, ih]

theorem alookup_aerase_self {κ α : Type} [DecidableEq κ] (k : κ)
    (l : List (κ × α)) : alookup k (aerase k l) = none := by
  induction l with
  | nil => simp [aerase, alookup]
  | cons p t ih =>
    by_cases h : p.1 = k
    · simpa [aerase, h] using ih
    · simpa [aerase, alookup, h] using ih

theorem alookup_aerase_ne {κ α : Type} [DecidableEq κ] {k k' : κ}
    (l : List (κ × α)) (h : k' ≠ k) :
    alookup k' (aerase k l) = alookup k' l := by
  have hne : ¬ k = k' := fun h' => h h'.symm
  induction l with
  | nil => simp [aerase]
  | cons p t ih =>
    obtain ⟨pk, pv⟩ := p
    by_cases hp : pk = k
    · subst hp
      have he : aerase pk ((pk, pv) :: t) = aerase pk t := by
        simp [aerase, List.filter_cons]
      rw [he, ih]
      simp [alookup, hne]
    · have he : aerase k ((pk, pv) :: t) = (pk, pv) :: aerase k t := by
        simp [aerase, List.filter_cons, hp]
      rw [he]
      simp [alookup, ih]

theorem mem_sinsert {α : Type} [DecidableEq α] (a b : α) (l : List α) :
    a ∈ sinsert b l ↔ a = b ∨ a ∈ l := by
  by_cases h : b ∈ l
  · simp only [sinsert, if_pos h]
    constructor
    · exact fun h' => Or.inr h'
    · rintro (rfl | h') <;> [exact h; exact h']
  · simp [sinsert, if_neg h, or_comm]

theorem mem_serase {α : Type} [DecidableEq α] (a b : α) (l : List α) :
    a ∈ serase b l ↔ a ∈ l ∧ a ≠ b := by
  simp [serase]

theorem mem_mkSet_aux {α : Type} [DecidableEq α] (l acc : List α) (a : α) :
    a ∈ l.foldl (fun s x => sinsert x s) acc ↔ a ∈ acc ∨ a ∈ l := by
  induction l generalizing acc with
  | nil => simp
  | cons b t ih =>
    simp only [List.foldl, ih, mem_sinsert, List.mem_cons]
    tauto

theorem mem_mkSet {α : Type} [DecidableEq α] (a : α) (l : List α) :
    a ∈ mkSet l ↔ a ∈ l := by
  simp [mkSet, mem_mkSet_aux]

theorem aupdate_map_fst {κ α : Type} [DecidableEq κ] (k : κ) (v : α)
    (l : List (κ × α)) :
    (aupdate k v l).map Prod.fst =
      if k ∈ l.map Prod.fst then l.map Prod.fst
      else l.map Prod.fst ++ [k] := by
  induction l with
  | nil => simp [aupdate]
  | cons p t ih =>
    obtain ⟨pk, pv⟩ := p
    by_cases h : pk = k
    · simp [aupdate, h]
    · have hne : ¬ k = pk := fun h' => h h'.symm
      simp only [aupdate, if_neg h, List.map, List.mem_cons, ih]
      by_cases h' : k ∈ t.map Prod.fst
      · simp [h', hne]
      · simp [h', hne]

theorem aerase_map_fst {κ α : Type} [DecidableEq κ] (k : κ)
    (l : List (κ × α)) :
    (aerase k l).map Prod.fst = (l.map Prod.fst).filter (fun x => x ≠ k) := by
  induction l with
  | nil => simp [aerase]
  | cons p t ih =>
    by_cases h : p.1 = k
    · simpa [aerase, List.filter, h] using ih
    · simpa [aerase, List.filter, h] using ih

theorem alookup_isSome_iff_mem {κ α : Type} [DecidableEq κ] (k : κ)
    (l : List (κ × α)) :
    (alookup k l).isSome ↔ k ∈ l.map Prod.fst := by
  induction l with
  | nil => simp [alookup]
  | cons p t ih =>
    obtain ⟨pk, pv⟩ := p
    by_cases h : pk = k
    · subst h
      simp [alookup]
    · have hne : ¬ k = pk := fun h' => h h'.symm
      simp [alookup, h, ih, hne]

theorem alookup_eq_none_iff_not_mem {κ α : Type} [DecidableEq κ] (k : κ)
    (l : List (κ × α)) :
    alookup k l = none ↔ k ∉ l.map Prod.fst := by
  rw [← alookup_isSome_iff_mem]
  cases alookup k l <;> simp

theorem aupdate_length_of_mem {κ α : Type} [DecidableEq κ] {k : κ} (v : α)
    {l : List (κ × α)} (h : k ∈ l.map Prod.fst) :
    (aupdate k v l).length = l.length := by
  have := aupdate_map_fst k v l
  rw [if_pos h] at this
  have h1 : ((aupdate k v l).map Prod.fst).length =
      (l.map Prod.fst).length := by rw [this]
  simpa using h1

theorem aupdate_length_of_not_mem {κ α : Type} [DecidableEq κ] {k : κ}
    (v : α) {l : List (κ × α)} (h : k ∉ l.map Prod.fst) :
    (aupdate k v l).length = l.length + 1 := by
  have := aupdate_map_fst k v l
  rw [if_neg h] at this
  have h1 : ((aupdate k v l).map Prod.fst).length =
      (l.map Prod.fst ++ [k]).length := by rw [this]
  simpa using h1

/-! ### Claim C2 -/

/-- C2: the claim that dpll (solve) returning Ok implies every declared
variable has a defined truth value fails on the code: on the clause list
[[1,2],[1,-2],[1,3],[1,-3]] the driver returns Ok while variable index 2
(external variable 3) is still unassigned, so the unassigned set is nonempty
and is_solved() is false.  The pure literal 1 removes every clause but
leaves empty occurrence entries for the other literals; guessing one of them
empties the clause set, and the inner call returns Ok through the
clauses-empty early return without the unassigned check. -/
theorem c2_partial_assignment_on_success :
    dpllRun headOracle 30 [[1, 2], [1, -2], [1, 3], [1, -3]] =
      Res.ok ⟨[some true, some true, none], [2]⟩ ∧
    PartialSolution.isSolved ⟨[some true, some true, none], [2]⟩ = false := by
  decide

/-! ### Claim C3 -/

/-- C3: completeness on small instances fails on the code: the one-variable
satisfiable formula [[1]] is accepted by the plain driver but the learning
driver cfcl returns the unsatisfiability failure Err(usize::MAX).  The
CnfGraph clause map never shrinks (clauses are only marked invalid), so the
success test `clauses.is_empty()` of _cfcl can never fire on a nonempty
input and cfcl fails on every satisfiable formula — contradicting the
repository's own test test_ok, which unwraps cfcl's result on a satisfiable
instance. -/
theorem c3_cfcl_fails_on_satisfiable :
    (cfclRun headOracle 30 [[1]]).1 = Res.err umax ∧
    dpllRun headOracle 30 [[1]] = Res.ok ⟨[some true], []⟩ ∧
    evalFormula (fun _ => true) [[1]] = true := by
  decide

/-! ### Claim C4: counterexample -/

/-- C4 counterexample: after the successful propagation of literal 1 on the
formula [[1,2]], the occurrence index still has an entry for literal 2 (with
an empty id set) although no active clause remains at all, refuting the
claimed "entry if and only if some active clause still contains the literal"
invariant in the entry-implies-clause direction. -/
theorem c4_counterexample :
    ((Cnf.fromClauses ⟨[[⟨0, true⟩, ⟨1, true⟩]], 2, 2⟩).propagation
        ⟨0, true⟩).1 = none ∧
    (alookup (⟨1, true⟩ : Lit)
      ((Cnf.fromClauses ⟨[[⟨0, true⟩, ⟨1, true⟩]], 2, 2⟩).propagation
        ⟨0, true⟩).2.occurrences).isSome = true ∧
    ((Cnf.fromClauses ⟨[[⟨0, true⟩, ⟨1, true⟩]], 2, 2⟩).propagation
        ⟨0, true⟩).2.clauses = [] := by
  decide

/-! ### Claim C5 -/

/-- C5 counterexample: for the Variant-A engine the claim fails: next_guess
ignores the strategy argument and draws a pseudo-random occurrence key.  On
the formula [[-1],[-2]] two resolutions of the random draw return two
different literals for the same state (so the result is not a deterministic
function of the formula state), and the returned literal is negative, not
normalized to its positive form. -/
theorem c5_counterexample :
    Cnf.nextGuess headOracle
        (Cnf.fromClauses ⟨[[⟨0, false⟩], [⟨1, false⟩]], 2, 2⟩) .direct =
      some ⟨0, false⟩ ∧
    Cnf.nextGuess lastOracle
        (Cnf.fromClauses ⟨[[⟨0, false⟩], [⟨1, false⟩]], 2, 2⟩) .direct =
      some ⟨1, false⟩ ∧
    (⟨0, false⟩ : Lit).positive = false := by
  decide

theorem minCodeLit_go (ls : List Lit) (m : Lit) :
    ∃ m', ls.foldl (fun acc l => match acc with
        | none => some l
        | some mm => if l.code < mm.code then some l else some mm)
        (some m) = some m' ∧
      (m' = m ∨ m' ∈ ls) ∧ m'.code ≤ m.code ∧ ∀ k ∈ ls, m'.code ≤ k.code := by
  induction ls generalizing m with
  | nil => exact ⟨m, rfl, Or.inl rfl, Nat.le_refl _, by simp⟩
  | cons a t ih =>
    by_cases hlt : a.code < m.code
    · obtain ⟨m', h1, h2, h3, h4⟩ := ih a
      refine ⟨m', ?_, ?_, Nat.le_trans h3 (Nat.le_of_lt hlt), ?_⟩
      · simpa [hlt] using h1
      · rcases h2 with rfl | h2
        · exact Or.inr (List.mem_cons_self _ _)
        · exact Or.inr (List.mem_cons_of_mem _ h2)
      · intro k hk
        rcases List.mem_cons.mp hk with rfl | hk
        · exact h3
        · exact h4 k hk
    · obtain ⟨m', h1, h2, h3, h4⟩ := ih m
      refine ⟨m', ?_, ?_, h3, ?_⟩
      · simpa [hlt] using h1
      · rcases h2 with rfl | h2
        · exact Or.inl rfl
        · exact Or.inr (List.mem_cons_of_mem _ h2)
      · intro k hk
        rcases List.mem_cons.mp hk with rfl | hk
        · exact Nat.le_trans h3 (Nat.le_of_not_lt hlt)
        · exact h4 k hk

theorem minCodeLit_spec (ls : List Lit) (h : ls ≠ []) :
    ∃ m, minCodeLit ls = some m ∧ m ∈ ls ∧ ∀ k ∈ ls, m.code ≤ k.code := by
  cases ls with
  | nil => exact absurd rfl h
  | cons a t =>
    obtain ⟨m', h1, h2, h3, h4⟩ := minCodeLit_go t a
    refine ⟨m', ?_, ?_, ?_⟩
    · simpa [minCodeLit] using h1
    · rcases h2 with rfl | h2
      · exact List.mem_cons_self _ _
      · exact List.mem_cons_of_mem _ h2
    · intro k hk
      rcases List.mem_cons.mp hk with rfl | hk
      · exact h3
      · exact h4 k hk

/-- C5 amended: for the Variant-B engine (CnfGraph) the claim holds: with
the Direct strategy, next_guess returns the literal with the smallest
ordering key (the dense code) among the occurrence-index keys, normalized to
its positive form, and the result does not depend on the random source; for
the Variant-A engine the strategy is ignored and the draw is random (see the
counterexample). -/
theorem c5_cnfgraph_direct_min (σ σ' : List Lit → Option Lit) (g : CnfGraph)
    (h : g.occurrences ≠ []) :
    ∃ m, m ∈ g.occurrences.map Prod.fst ∧
      (∀ k ∈ g.occurrences.map Prod.fst, m.code ≤ k.code) ∧
      CnfGraph.nextGuess σ g .direct =
        some (if !m.positive then m.neg else m) ∧
      CnfGraph.nextGuess σ g .direct = CnfGraph.nextGuess σ' g .direct := by
  have hk : g.occurrences.map Prod.fst ≠ [] := by
    intro he
    exact h (List.map_eq_nil_iff.mp he)
  obtain ⟨m, hm, hmem, hmin⟩ := minCodeLit_spec _ hk
  refine ⟨m, hmem, hmin, ?_, rfl⟩
  simp [CnfGraph.nextGuess, hm]

/-- Witness for the amended C5 theorem at the concrete state loaded from
[[-1,2],[-2]]: the smallest occurrence key is -1 and the returned guess is
its positive form, variable index 0 positive. -/
theorem c5_cnfgraph_direct_min_witness :
    ∃ m, m ∈ (CnfGraph.fromClauses
        ⟨[[⟨0, false⟩, ⟨1, true⟩], [⟨1, false⟩]], 2, 2⟩).occurrences.map
        Prod.fst ∧
      (∀ k ∈ (CnfGraph.fromClauses
        ⟨[[⟨0, false⟩, ⟨1, true⟩], [⟨1, false⟩]], 2, 2⟩).occurrences.map
        Prod.fst, m.code ≤ k.code) ∧
      CnfGraph.nextGuess headOracle (CnfGraph.fromClauses
        ⟨[[⟨0, false⟩, ⟨1, true⟩], [⟨1, false⟩]], 2, 2⟩) .direct =
        some (if !m.positive then m.neg else m) ∧
      CnfGraph.nextGuess headOracle (CnfGraph.fromClauses
        ⟨[[⟨0, false⟩, ⟨1, true⟩], [⟨1, false⟩]], 2, 2⟩) .direct =
        CnfGraph.nextGuess lastOracle (CnfGraph.fromClauses
        ⟨[[⟨0, false⟩, ⟨1, true⟩], [⟨1, false⟩]], 2, 2⟩) .direct :=
  c5_cnfgraph_direct_min headOracle lastOracle _ (by decide)

/-! ### Claim C6 -/

/-- C6 counterexample: on the freshly loaded formula [[1],[-1]] (no guesses
recorded, clause id 0 present in the database), learn_from_conflict does not
return the "no clause derivable" outcome: it panics, because `guessed[0]` is
read from the empty decision stack. -/
theorem c6_counterexample :
    clausesFrom [[1], [-1]] = some ⟨[[⟨0, true⟩], [⟨0, false⟩]], 1, 1⟩ ∧
    (alookup 0 (CnfGraph.fromClauses
      ⟨[[⟨0, true⟩], [⟨0, false⟩]], 1, 1⟩).clauses).isSome = true ∧
    (CnfGraph.fromClauses ⟨[[⟨0, true⟩], [⟨0, false⟩]], 1, 1⟩).guessed
      = [] ∧
    CnfGraph.learnFromConflict
      (CnfGraph.fromClauses ⟨[[⟨0, true⟩], [⟨0, false⟩]], 1, 1⟩) 0 50 =
      LRes.panic ∧
    LRes.panic ≠ LRes.res none := by
  decide

/-- C6 amended: for every Variant-B formula state whose decision stack is
empty and any clause id present in the database, learn_from_conflict panics
(the `guessed[0]` indexing) instead of returning the "no clause derivable"
outcome; the None return value is never produced on this path. -/
theorem c6_empty_decision_stack_panics (g : CnfGraph) (cid fuel : Nat)
    (h1 : g.guessed = []) (h2 : (alookup cid g.clauses).isSome) :
    CnfGraph.learnFromConflict g cid fuel = LRes.panic := by
  unfold CnfGraph.learnFromConflict
  cases hv : alookup cid g.clauses with
  | none => rw [hv] at h2
  | some v =>
    obtain ⟨clause, valid⟩ := v
    rw [h1]

/-- Witness for the amended C6 theorem at the loaded formula [[1],[-1]] and
clause id 1. -/
theorem c6_empty_decision_stack_panics_witness :
    CnfGraph.learnFromConflict
      (CnfGraph.fromClauses ⟨[[⟨0, true⟩], [⟨0, false⟩]], 1, 1⟩) 1 50 =
      LRes.panic :=
  c6_empty_decision_stack_panics _ 1 50 (by decide) (by decide)

/-! ### Claim C7: counterexample -/

/-- C7 counterexample: on the input [[2]] the loader computes the
distinct-variable count n_lit = 1 but builds the literal of variable index
1, which is not below n_lit; consequently the assignment tracker sized by
n_lit is indexed out of bounds during propagation and the plain driver
panics. -/
theorem c7_counterexample :
    clausesFrom [[2]] = some ⟨[[⟨1, true⟩]], 1, 2⟩ ∧
    ¬ (∀ c ∈ (⟨[[⟨1, true⟩]], 1, 2⟩ : Clauses).clauses, ∀ l ∈ c,
        l.index < (⟨[[⟨1, true⟩]], 1, 2⟩ : Clauses).nVars) ∧
    dpllRun headOracle 10 [[2]] = Res.panic := by
  refine ⟨by decide, ?_, by decide⟩
  intro h
  have := h [⟨1, true⟩] (by decide) ⟨1, true⟩ (by decide)
  simp at this

/-! ### Claim C8 -/

/-- C8 counterexample: the learned clauses are not part of the caller-visible
result value.  The formulas [[1],[-1]] and [[1,2],[1,-2],[-1,2],[-1,-2]]
produce the same result value Err(1), while the learned-clause logs differ
(empty for the first, two learned unit clauses for the second): the result
value does not carry the learned clauses. -/
theorem c8_counterexample :
    (cfclRun headOracle 40 [[1], [-1]]).1 =
      (cfclRun headOracle 40 [[1, 2], [1, -2], [-1, 2], [-1, -2]]).1 ∧
    (cfclRun headOracle 40 [[1], [-1]]).2 ≠
      (cfclRun headOracle 40 [[1, 2], [1, -2], [-1, 2], [-1, -2]]).2 := by
  decide

/-- C8 amended: cfcl accumulates the clauses learned along the path in an
internal log which it only prints; the caller-visible Result value does not
contain them.  On the unsatisfiable two-variable formula
[[1,2],[1,-2],[-1,2],[-1,-2]] the run learns the clauses [-1] and [1]
(appended to the printed log) yet returns plain Err(1). -/
theorem c8_learned_clauses_only_logged :
    cfclRun headOracle 40 [[1, 2], [1, -2], [-1, 2], [-1, -2]] =
      (Res.err 1, [[⟨0, false⟩], [⟨0, true⟩]]) := by
  decide

/-! ### Claim C9: counterexample -/

/-- C9 counterexample: in the Variant-A engine, after a deletion the map
size is reused as the next id and collides with a live clause: on the
formula [[1],[2,3]], propagating literal 1 removes clause 0, and a
subsequent add_clause assigns the new clause id 1 — the id of the live
clause {2,3} — overwriting it. -/
theorem c9_counterexample :
    alookup 1 ((Cnf.fromClauses
        ⟨[[⟨0, true⟩], [⟨1, true⟩, ⟨2, true⟩]], 3, 3⟩).removePositive
        ⟨0, true⟩).clauses = some [⟨1, true⟩, ⟨2, true⟩] ∧
    alookup 1 (((Cnf.fromClauses
        ⟨[[⟨0, true⟩], [⟨1, true⟩, ⟨2, true⟩]], 3, 3⟩).removePositive
        ⟨0, true⟩).addClause [⟨3, true⟩]).clauses = some [⟨3, true⟩] := by
  decide

/-! ### Claim C10 -/

theorem cnf_removeNegationGo_conflict {l : Lit} {ids : List Nat}
    {cnf cnf' : Cnf} {cid : Nat}
    (h : Cnf.removeNegationGo l ids cnf = (some cid, cnf')) :
    alookup cid cnf'.clauses = none := by
  induction ids generalizing cnf with
  | nil => simp [Cnf.removeNegationGo] at h
  | cons i rest ih =>
    simp only [Cnf.removeNegationGo] at h
    split at h
    · exact ih h
    · split at h
      · obtain ⟨h1, h2⟩ := Prod.mk.injEq _ _ _ _ ▸ h
        obtain rfl : i = cid := Option.some.inj h1
        rw [← h2]
        exact alookup_aerase_self _ _
      · exact ih h

theorem cg_removeNegationGo_conflict {l : Lit} {ids : List Nat}
    {g g' : CnfGraph} {cid : Nat}
    (h : CnfGraph.removeNegationGo l ids g = (.err cid, g')) :
    ∃ fs : FakeHashSet, alookup cid g'.clauses = some (fs, true) ∧
      fs.len = 0 := by
  induction ids generalizing g with
  | nil => simp [CnfGraph.removeNegationGo] at h
  | cons i rest ih =>
    simp only [CnfGraph.removeNegationGo] at h
    split at h
    · exact ih h
    · rename_i clause valid heq
      split at h
      · simp at h
      · split at h
        · obtain ⟨h1, h2⟩ := Prod.mk.injEq _ _ _ _ ▸ h
          obtain rfl : i = cid := BOut.err.inj h1
          rename_i hlen
          refine ⟨_, ?_, hlen⟩
          rw [← h2]
          exact alookup_aupdate_self _ _ _
        · exact ih h

/-- C10: the state at the moment a propagation conflict (empty clause) is
reported differs between the variants: Variant A's remove_negation has
removed the emptied clause from the database before returning Err, while
Variant B's remove_negation has reinserted it, present and marked active
(valid = true) with zero remaining literals — which is what lets
learn_from_conflict look the conflicting clause up by its id. -/
theorem c10_conflict_state :
    (∀ (cnf : Cnf) (l : Lit) (cid : Nat) (cnf' : Cnf),
      cnf.removeNegation l = (some cid, cnf') →
        alookup cid cnf'.clauses = none) ∧
    (∀ (g : CnfGraph) (l : Lit) (cid : Nat) (g' : CnfGraph),
      g.removeNegation l = (.err cid, g') →
        ∃ fs : FakeHashSet, alookup cid g'.clauses = some (fs, true) ∧
          fs.len = 0) := by
  constructor
  · intro cnf l cid cnf' h
    unfold Cnf.removeNegation at h
    cases hv : alookup l cnf.occurrences with
    | none => rw [hv] at h; simp at h
    | some occurs =>
      rw [hv] at h
      exact cnf_removeNegationGo_conflict h
  · intro g l cid g' h
    unfold CnfGraph.removeNegation at h
    cases hv : alookup l g.occurrences with
    | none => rw [hv] at h; simp at h
    | some occurs =>
      rw [hv] at h
      exact cg_removeNegationGo_conflict h

/-- Witness for C10 at the loaded one-clause formula [[1]]: falsifying
literal 1 empties clause 0; in Variant A the clause is gone from the
returned state, in Variant B it is present, active and empty. -/
theorem c10_conflict_state_witness :
    alookup 0 ((Cnf.fromClauses ⟨[[⟨0, true⟩]], 1, 1⟩).removeNegation
        ⟨0, true⟩).2.clauses = none ∧
    ∃ fs : FakeHashSet,
      alookup 0 (((CnfGraph.fromClauses ⟨[[⟨0, true⟩]], 1, 1⟩).ensureNode
          ⟨0, false⟩).removeNegation ⟨0, true⟩).2.clauses =
        some (fs, true) ∧ fs.len = 0 :=
  ⟨c10_conflict_state.1 (Cnf.fromClauses ⟨[[⟨0, true⟩]], 1, 1⟩) ⟨0, true⟩ 0 _
      (by decide),
    c10_conflict_state.2 ((CnfGraph.fromClauses ⟨[[⟨0, true⟩]], 1, 1⟩
      ).ensureNode ⟨0, false⟩) ⟨0, true⟩ 0 _ (by decide)⟩

/-! ### Claim C7: amended bound -/

theorem fromDimacs_index_lt {v : Int} {l : Lit} (h0 : v ≠ 0)
    (h : Lit.fromDimacs v = some l) : l.index < v.natAbs := by
  unfold Lit.fromDimacs at h
  rw [if_neg h0] at h
  by_cases hp : 0 < v
  · rw [if_pos hp] at h
    obtain rfl := Option.some.inj h
    simp only
    omega
  · rw [if_neg hp] at h
    obtain rfl := Option.some.inj h
    simp only
    omega

theorem le_foldl_natAbs_max (c : List Int) (m : Nat) :
    m ≤ c.foldl (fun m v => Nat.max m v.natAbs) m := by
  induction c generalizing m with
  | nil => exact Nat.le_refl _
  | cons a t ih =>
    exact Nat.le_trans (Nat.le_max_left m a.natAbs) (ih _)

theorem mem_le_foldl_natAbs_max {c : List Int} {v : Int} (h : v ∈ c)
    (m : Nat) : v.natAbs ≤ c.foldl (fun m v => Nat.max m v.natAbs) m := by
  induction c generalizing m with
  | nil => simp at h
  | cons a t ih =>
    rcases List.mem_cons.mp h with rfl | h
    · exact Nat.le_trans (Nat.le_max_right m v.natAbs)
        (le_foldl_natAbs_max t _)
    · exact ih h _

theorem le_foldl_outer_max (f : List (List Int)) (m : Nat) :
    m ≤ f.foldl (fun m c => c.foldl (fun m v => Nat.max m v.natAbs) m) m := by
  induction f generalizing m with
  | nil => exact Nat.le_refl _
  | cons a t ih =>
    exact Nat.le_trans (le_foldl_natAbs_max a m) (ih _)

theorem mem_le_maxV {f : List (List Int)} {c : List Int} {v : Int}
    (hc : c ∈ f) (hv : v ∈ c) (m : Nat) :
    v.natAbs ≤ f.foldl
      (fun m c => c.foldl (fun m v => Nat.max m v.natAbs) m) m := by
  induction f generalizing m with
  | nil => simp at hc
  | cons a t ih =>
    rcases List.mem_cons.mp hc with rfl | hc
    · exact Nat.le_trans (mem_le_foldl_natAbs_max hv m)
        (le_foldl_outer_max t _)
    · exact ih hc _

theorem clauseFromInts_mem {ci : List Int} {c : List Lit}
    (h : clauseFromInts ci = some c) :
    ∀ l ∈ c, ∃ v ∈ ci, Lit.fromDimacs v = some l := by
  induction ci generalizing c with
  | nil =>
    obtain rfl : [] = c := Option.some.inj h
    simp
  | cons a t ih =>
    simp only [clauseFromInts, List.foldr] at h
    cases hd : Lit.fromDimacs a with
    | none => rw [hd] at h; simp at h
    | some l0 =>
      rw [hd] at h
      cases ht : clauseFromInts t with
      | none =>
        unfold clauseFromInts at ht
        rw [ht] at h
        simp at h
      | some tl =>
        unfold clauseFromInts at ht
        rw [ht] at h
        obtain rfl : l0 :: tl = c := Option.some.inj h
        intro l hl
        rcases List.mem_cons.mp hl with rfl | hl
        · exact ⟨a, by simp, hd⟩
        · obtain ⟨v, hv1, hv2⟩ := ih ht l hl
          exact ⟨v, List.mem_cons_of_mem _ hv1, hv2⟩

theorem clausesFrom_parse_mem {f : List (List Int)} {out : List (List Lit)}
    (h : f.foldr (fun c acc => match clauseFromInts c, acc with
      | some cl, some t => some (cl :: t)
      | _, _ => none) (some []) = some out) :
    ∀ c ∈ out, ∃ ci ∈ f, clauseFromInts ci = some c := by
  induction f generalizing out with
  | nil =>
    obtain rfl : [] = out := Option.some.inj h
    simp
  | cons a t ih =>
    simp only [List.foldr] at h
    cases hd : clauseFromInts a with
    | none => rw [hd] at h; simp at h
    | some cl =>
      rw [hd] at h
      cases ht : t.foldr (fun c acc => match clauseFromInts c, acc with
        | some cl, some t => some (cl :: t)
        | _, _ => none) (some []) with
      | none => rw [ht] at h; simp at h
      | some tl =>
        rw [ht] at h
        obtain rfl : cl :: tl = out := Option.some.inj h
        intro c hc
        rcases List.mem_cons.mp hc with rfl | hc
        · exact ⟨a, by simp, hd⟩
        · obtain ⟨ci, h1, h2⟩ := ih ht c hc
          exact ⟨ci, List.mem_cons_of_mem _ h1, h2⟩

/-- C7 amended: for every input clause list of nonzero signed integers,
every literal constructed by the loader has a variable index within
[0, max), where max is the maximum variable magnitude computed by the
container — but not necessarily within [0, n_lit) for the distinct-variable
count n_lit, and the tracker sized by n_lit can be indexed out of bounds
when the variable ids are not contiguous (see the counterexample). -/
theorem c7_literal_index_lt_max (f : List (List Int))
    (h0 : ∀ c ∈ f, ∀ v ∈ c, v ≠ 0) (cls : Clauses)
    (h : clausesFrom f = some cls) :
    ∀ c ∈ cls.clauses, ∀ l ∈ c, l.index < cls.maxVar := by
  unfold clausesFrom at h
  cases hp : f.foldr (fun c acc => match clauseFromInts c, acc with
    | some cl, some t => some (cl :: t)
    | _, _ => none) (some []) with
  | none => rw [hp] at h; simp at h
  | some out =>
    rw [hp] at h
    obtain rfl := (Option.some.inj h).symm
    intro c hc l hl
    obtain ⟨ci, hci, hparse⟩ := clausesFrom_parse_mem hp c hc
    obtain ⟨v, hv, hvl⟩ := clauseFromInts_mem hparse l hl
    have hvne : v ≠ 0 := h0 ci hci v hv
    exact Nat.lt_of_lt_of_le (fromDimacs_index_lt hvne hvl)
      (mem_le_maxV hci hv 0)

/-- Witness for the amended C7 theorem at the input [[2],[−2,1]]: the loaded
literal 2 (index 1) is below the computed maximum magnitude 2. -/
theorem c7_literal_index_lt_max_witness :
    (⟨1, true⟩ : Lit).index <
      (⟨[[⟨1, true⟩], [⟨1, false⟩, ⟨0, true⟩]], 2, 2⟩ : Clauses).maxVar :=
  c7_literal_index_lt_max [[2], [-2, 1]] (by decide) _ (by decide)
    [⟨1, true⟩] (by decide) ⟨1, true⟩ (by decide)

/-! ### Key-set lemmas and Claim C9 -/

theorem isSome_aupdate {κ α : Type} [DecidableEq κ] (k k' : κ) (v : α)
    (l : List (κ × α)) :
    (alookup k' (aupdate k v l)).isSome ↔
      k' = k ∨ (alookup k' l).isSome := by
  by_cases h : k' = k
  · subst h
    simp [alookup_aupdate_self]
  · rw [alookup_aupdate_ne _ _ h]
    simp [h]

theorem isSome_aerase {κ α : Type} [DecidableEq κ] (k k' : κ)
    (l : List (κ × α)) :
    (alookup k' (aerase k l)).isSome ↔
      k' ≠ k ∧ (alookup k' l).isSome := by
  by_cases h : k' = k
  · subst h
    simp [alookup_aerase_self]
  · rw [alookup_aerase_ne _ h]
    simp [h]

theorem aerase_eq_of_not_mem {κ α : Type} [DecidableEq κ] {k : κ}
    {l : List (κ × α)} (h : k ∉ l.map Prod.fst) : aerase k l = l := by
  refine List.filter_eq_self.mpr ?_
  intro p hp
  simp only [ne_eq, decide_eq_true_eq]
  intro he
  exact h (he ▸ List.mem_map_of_mem Prod.fst hp)

theorem length_aerase_of_mem {κ α : Type} [DecidableEq κ] {k : κ}
    {l : List (κ × α)} (hnd : (l.map Prod.fst).Nodup)
    (h : k ∈ l.map Prod.fst) : (aerase k l).length + 1 = l.length := by
  induction l with
  | nil => simp at h
  | cons p t ih =>
    obtain ⟨pk, pv⟩ := p
    simp only [List.map, List.nodup_cons] at hnd
    by_cases hp : pk = k
    · subst hp
      have : aerase pk ((pk, pv) :: t) = aerase pk t := by
        simp [aerase, List.filter_cons]
      rw [this, aerase_eq_of_not_mem hnd.1]
      simp
    · have : aerase k ((pk, pv) :: t) = (pk, pv) :: aerase k t := by
        simp [aerase, List.filter_cons, hp]
      rw [this]
      rcases List.mem_cons.mp h with he | h
      · exact absurd he.symm hp
      · simp only [List.length_cons]
        rw [← ih hnd.2 h]

theorem keysOkL_nil {α : Type} : keysOkL ([] : List (Nat × α)) := by
  constructor
  · simp
  · intro id
    simp [alookup]

theorem keysOkL_aupdate_present {α : Type} {cl : List (Nat × α)}
    (h : keysOkL cl) {k : Nat} (v : α) (hk : (alookup k cl).isSome) :
    keysOkL (aupdate k v cl) := by
  have hmem : k ∈ cl.map Prod.fst := (alookup_isSome_iff_mem _ _).mp hk
  constructor
  · rw [aupdate_map_fst, if_pos hmem]
    exact h.1
  · intro id
    rw [isSome_aupdate, aupdate_length_of_mem _ hmem]
    constructor
    · rintro (rfl | hs)
      · exact (h.2 id).mp hk
      · exact (h.2 id).mp hs
    · intro hlt
      exact Or.inr ((h.2 id).mpr hlt)

theorem keysOkL_aupdate_fresh {α : Type} {cl : List (Nat × α)}
    (h : keysOkL cl) (v : α) : keysOkL (aupdate cl.length v cl) := by
  have hk : ¬ (alookup cl.length cl).isSome := by
    rw [h.2]
    omega
  have hmem : cl.length ∉ cl.map Prod.fst := by
    rw [← alookup_isSome_iff_mem]
    exact hk
  constructor
  · rw [aupdate_map_fst, if_neg hmem]
    refine List.Nodup.append h.1 (List.nodup_singleton _) ?_
    intro a ha hb
    obtain rfl : a = cl.length := by simpa using hb
    exact hmem ha
  · intro id
    rw [isSome_aupdate, aupdate_length_of_not_mem _ hmem, h.2]
    omega

theorem keysOkL_aerase_aupdate {α : Type} {cl : List (Nat × α)}
    (h : keysOkL cl) {k : Nat} (v : α) (hk : (alookup k cl).isSome) :
    keysOkL (aupdate k v (aerase k cl)) := by
  have hmem : k ∈ cl.map Prod.fst := (alookup_isSome_iff_mem _ _).mp hk
  have hnd : ((aerase k cl).map Prod.fst).Nodup := by
    rw [aerase_map_fst]
    exact List.Nodup.filter _ h.1
  have hnotmem : k ∉ (aerase k cl).map Prod.fst := by
    rw [← alookup_isSome_iff_mem, isSome_aerase]
    simp
  have hlen : (aerase k cl).length + 1 = cl.length :=
    length_aerase_of_mem h.1 hmem
  constructor
  · rw [aupdate_map_fst, if_neg hnotmem]
    refine List.Nodup.append hnd (List.nodup_singleton _) ?_
    intro a ha hb
    obtain rfl : a = k := by simpa using hb
    exact hnotmem ha
  · intro id
    rw [isSome_aupdate, aupdate_length_of_not_mem _ hnotmem, hlen]
    rw [isSome_aerase]
    constructor
    · rintro (rfl | ⟨hne, hs⟩)
      · exact (h.2 id).mp hk
      · exact (h.2 id).mp hs
    · intro hlt
      by_cases he : id = k
      · exact Or.inl he
      · exact Or.inr ⟨he, (h.2 id).mpr hlt⟩

theorem ensureNode_clauses (g : CnfGraph) (l : Lit) :
    (g.ensureNode l).clauses = g.clauses := by
  unfold CnfGraph.ensureNode
  cases g.nodes.getD l.code none <;> rfl

theorem addEdgeOnce_clauses (g : CnfGraph) (a b : Nat) :
    (g.addEdgeOnce a b).clauses = g.clauses := by
  unfold CnfGraph.addEdgeOnce
  by_cases h : (a, b) ∈ g.graphEdges
  · rw [if_pos h]
  · rw [if_neg h]

theorem edgeFold_clauses (lits : List Lit) (g : CnfGraph) (litNode : Nat) :
    (lits.foldl (fun g aff =>
      match (g.ensureNode aff).nodes.getD aff.code none with
      | none => g.ensureNode aff
      | some affNode => (g.ensureNode aff).addEdgeOnce litNode affNode)
      g).clauses = g.clauses := by
  induction lits generalizing g with
  | nil => rfl
  | cons a t ih =>
    rw [List.foldl_cons, ih]
    cases (g.ensureNode a).nodes.getD a.code none with
    | none => exact ensureNode_clauses g a
    | some affNode =>
      rw [addEdgeOnce_clauses, ensureNode_clauses]

theorem keysOk_rpGo {ids : List Nat} {g : CnfGraph}
    (h : keysOkL g.clauses) :
    keysOkL (CnfGraph.removePositiveGo ids g).clauses := by
  induction ids generalizing g with
  | nil => exact h
  | cons cid rest ih =>
    simp only [CnfGraph.removePositiveGo]
    cases hv : alookup cid g.clauses with
    | none => exact ih h
    | some p =>
      obtain ⟨clause, valid⟩ := p
      by_cases hval : valid
      · simp only [hval, if_pos]
        refine ih ?_
        exact keysOkL_aupdate_present h _ (by simp [hv])
      · simp only [hval, if_neg, not_false_iff]
        exact ih h

theorem keysOk_removePositive {g : CnfGraph} (l : Lit)
    (h : keysOkL g.clauses) :
    keysOkL (g.removePositive l).clauses := by
  unfold CnfGraph.removePositive
  cases alookup l g.occurrences with
  | none => exact h
  | some occurs => exact keysOk_rpGo h

theorem keysOk_rnGo {l : Lit} {ids : List Nat} {g : CnfGraph}
    (h : keysOkL g.clauses) {out : BOut} {g' : CnfGraph}
    (hres : CnfGraph.removeNegationGo l ids g = (out, g'))
    (hp : out ≠ BOut.panic) : keysOkL g'.clauses := by
  induction ids generalizing g with
  | nil =>
    simp only [CnfGraph.removeNegationGo] at hres
    obtain ⟨rfl, rfl⟩ := Prod.mk.injEq _ _ _ _ ▸ hres
    exact h
  | cons cid rest ih =>
    simp only [CnfGraph.removeNegationGo] at hres
    split at hres
    · exact ih h hres
    · rename_i clause valid heq
      split at hres
      · obtain ⟨rfl, rfl⟩ := Prod.mk.injEq _ _ _ _ ▸ hres
        exact absurd rfl hp
      · rename_i litNode hnode
        have hupd : keysOkL (aupdate cid ((clause.remove l), true)
            (aerase cid g.clauses)) :=
          keysOkL_aerase_aupdate h _ (by simp [heq])
        split at hres
        · obtain ⟨rfl, rfl⟩ := Prod.mk.injEq _ _ _ _ ▸ hres
          show keysOkL (aupdate cid ((clause.remove l), true) _)
          rw [edgeFold_clauses]
          exact hupd
        · by_cases hl1 : (clause.remove l).len = 1
          · rw [if_pos hl1] at hres
            exact ih (by
              show keysOkL (aupdate cid ((clause.remove l), true) _)
              rw [edgeFold_clauses]
              exact hupd) hres
          · rw [if_neg hl1] at hres
            exact ih (by
              show keysOkL (aupdate cid ((clause.remove l), true) _)
              rw [edgeFold_clauses]
              exact hupd) hres

theorem keysOk_removeNegation {g : CnfGraph} (l : Lit)
    (h : keysOkL g.clauses) {out : BOut} {g' : CnfGraph}
    (hres : g.removeNegation l = (out, g')) (hp : out ≠ BOut.panic) :
    keysOkL g'.clauses := by
  unfold CnfGraph.removeNegation at hres
  split at hres
  · obtain ⟨rfl, rfl⟩ := Prod.mk.injEq _ _ _ _ ▸ hres
    exact h
  · refine keysOk_rnGo ?_ hres hp
    exact h

theorem keysOk_propagation {g : CnfGraph} (l : Lit)
    (h : keysOkL g.clauses) {out : BOut} {g' : CnfGraph}
    (hres : g.propagation l = (out, g')) (hp : out ≠ BOut.panic) :
    keysOkL g'.clauses := by
  unfold CnfGraph.propagation at hres
  refine keysOk_removeNegation l.neg ?_ hres hp
  rw [ensureNode_clauses]
  have h1 : keysOkL (g.ensureNode l).clauses := by
    rw [ensureNode_clauses]
    exact h
  exact keysOk_removePositive l h1

theorem keysOk_unitPropagation {g : CnfGraph} (cid : Nat)
    (h : keysOkL g.clauses) {out : BOut} {ol : Option Lit} {g' : CnfGraph}
    (hres : g.unitPropagation cid = (out, ol, g')) (hp : out ≠ BOut.panic) :
    keysOkL g'.clauses := by
  unfold CnfGraph.unitPropagation at hres
  split at hres
  · obtain ⟨rfl, rfl, rfl⟩ := Prod.mk.injEq _ _ _ _ ▸ hres
    exact h
  · rename_i p clause valid heq
    split at hres
    · rename_i hval
      have h1 : keysOkL (aupdate cid (clause, false) g.clauses) :=
        keysOkL_aupdate_present h _ (by simp [heq])
      dsimp only at hres
      split at hres
      · split at hres
        · obtain ⟨rfl, rfl, rfl⟩ := Prod.mk.injEq _ _ _ _ ▸ hres
          exact absurd rfl hp
        · split at hres <;>
            · rename_i g2 hprop
              obtain ⟨rfl, rfl, rfl⟩ := Prod.mk.injEq _ _ _ _ ▸ hres
              first
              | exact absurd rfl hp
              | exact keysOk_propagation _ h1 hprop (by simp)
      · obtain ⟨rfl, rfl, rfl⟩ := Prod.mk.injEq _ _ _ _ ▸ hres
        exact absurd rfl hp
    · obtain ⟨rfl, rfl, rfl⟩ := Prod.mk.injEq _ _ _ _ ▸ hres
      exact h

theorem keysOk_unitPropagations {fuel : Nat} {g : CnfGraph}
    (h : keysOkL g.clauses) {out : BOut} {ls : List Lit} {g' : CnfGraph}
    (hres : CnfGraph.unitPropagations fuel g = (out, ls, g'))
    (hp : out ≠ BOut.panic) : keysOkL g'.clauses := by
  induction fuel generalizing g ls out with
  | zero =>
    simp only [CnfGraph.unitPropagations] at hres
    obtain ⟨rfl, rfl, rfl⟩ := Prod.mk.injEq _ _ _ _ ▸ hres
    exact h
  | succ fuel ih =>
    simp only [CnfGraph.unitPropagations] at hres
    split at hres
    · obtain ⟨rfl, rfl, rfl⟩ := Prod.mk.injEq _ _ _ _ ▸ hres
      exact h
    · split at hres
      · rename_i optLit g1 hup
        have h1 : keysOkL g1.clauses :=
          keysOk_unitPropagation _ h hup (by simp)
        split at hres <;>
        · rename_i lits g2 hups
          obtain ⟨rfl, rfl, rfl⟩ := Prod.mk.injEq _ _ _ _ ▸ hres
          refine ih ?_ hups ?_
          · exact h1
          · first
            | exact hp
            | simp
      all_goals
        rename_i o g1 hup
        obtain ⟨rfl, rfl, rfl⟩ := Prod.mk.injEq _ _ _ _ ▸ hres
        exact keysOk_unitPropagation _ h hup hp

theorem keysOk_addClause {g : CnfGraph} (cl : List Lit)
    (h : keysOkL g.clauses) : keysOkL (g.addClause cl).clauses :=
  keysOkL_aupdate_fresh h _

theorem reachB_keysOk {g : CnfGraph} (h : ReachB g) : keysOkL g.clauses := by
  induction h with
  | base n m k => exact keysOkL_nil
  | add cl _ ih => exact keysOk_addClause cl ih
  | rp l _ ih => exact keysOk_removePositive l ih
  | rn l _ hp ih => exact keysOk_removeNegation l ih rfl hp
  | prop l _ hp ih => exact keysOk_propagation l ih rfl hp
  | @unitP g cid hg hp ih =>
    cases hres : g.unitPropagation cid with
    | mk out p2 =>
      obtain ⟨ol, g2⟩ := p2
      rw [hres] at hp
      exact keysOk_unitPropagation cid ih hres hp
  | @unitPs g fuel hg hp ih =>
    cases hres : CnfGraph.unitPropagations fuel g with
    | mk out p2 =>
      obtain ⟨ls, g2⟩ := p2
      rw [hres] at hp
      exact keysOk_unitPropagations ih hres hp
  | guess l _ ih => exact ih

/-- C9 amended: in Variant B the clause map is append-only (invalidation is
in place), so in every reachable state the id handed out by add_clause — the
map size — is fresh: it is bound to no existing clause, and every existing
clause keeps its binding after the insertion.  (In Variant A the claim
fails after deletions — see the counterexample.) -/
theorem c9_cnfgraph_fresh_ids (g : CnfGraph) (h : ReachB g)
    (cl : List Lit) :
    alookup g.clauses.length g.clauses = none ∧
    ∀ id v, alookup id g.clauses = some v →
      alookup id (g.addClause cl).clauses = some v := by
  have hk := reachB_keysOk h
  constructor
  · have : ¬ (alookup g.clauses.length g.clauses).isSome := by
      rw [hk.2]
      omega
    cases hv : alookup g.clauses.length g.clauses with
    | none => rfl
    | some v => rw [hv] at this; simp at this
  · intro id v hv
    have hlt : id < g.clauses.length := (hk.2 id).mp (by simp [hv])
    have hne : id ≠ g.clauses.length := by omega
    show alookup id (aupdate g.clauses.length _ g.clauses) = some v
    rw [alookup_aupdate_ne _ _ hne]
    exact hv

/-- Witness for the amended C9 theorem at a reachable Variant-B state: the
formula loaded from [[1,2]] after propagating literal 1. -/
theorem c9_cnfgraph_fresh_ids_witness :
    alookup (((CnfGraph.new 2 2 1).addClause [⟨0, true⟩, ⟨1, true⟩]
        ).propagation ⟨0, true⟩).2.clauses.length
      (((CnfGraph.new 2 2 1).addClause [⟨0, true⟩, ⟨1, true⟩]
        ).propagation ⟨0, true⟩).2.clauses = none ∧
    ∀ id v, alookup id (((CnfGraph.new 2 2 1).addClause
        [⟨0, true⟩, ⟨1, true⟩]).propagation ⟨0, true⟩).2.clauses = some v →
      alookup id ((((CnfGraph.new 2 2 1).addClause [⟨0, true⟩, ⟨1, true⟩]
        ).propagation ⟨0, true⟩).2.addClause [⟨1, false⟩]).clauses =
        some v :=
  c9_cnfgraph_fresh_ids _
    (ReachB.prop ⟨0, true⟩
      (ReachB.add [⟨0, true⟩, ⟨1, true⟩] (ReachB.base 2 2 1))
      (by decide))
    [⟨1, false⟩]

/-! ### Variant-A occurrence-index machinery (Claims C4 and C1) -/

theorem cleanupFold_facts (cl : List Lit) (cid : Nat)
    (occ : List (Lit × List Nat)) :
    (∀ m, alookup m occ = none →
      alookup m (cl.foldl (fun occ l =>
        match alookup l occ with
        | none => occ
        | some s => aupdate l (serase cid s) occ) occ) = none) ∧
    (∀ m s', alookup m (cl.foldl (fun occ l =>
        match alookup l occ with
        | none => occ
        | some s => aupdate l (serase cid s) occ) occ) = some s' →
      ∃ s, alookup m occ = some s ∧ ∀ id ∈ s', id ∈ s) ∧
    (∀ m s, alookup m occ = some s → ∀ id ∈ s, id ≠ cid →
      ∃ s', alookup m (cl.foldl (fun occ l =>
        match alookup l occ with
        | none => occ
        | some s => aupdate l (serase cid s) occ) occ) = some s' ∧
        id ∈ s') := by
  induction cl generalizing occ with
  | nil =>
    refine ⟨fun m h => h, fun m s' h => ⟨s', h, fun id hid => hid⟩,
      fun m s h id hid _ => ⟨s, h, hid⟩⟩
  | cons a t ih =>
    have step : ∀ occ1 : List (Lit × List Nat),
        (a :: t).foldl (fun occ l =>
          match alookup l occ with
          | none => occ
          | some s => aupdate l (serase cid s) occ) occ1 =
        t.foldl (fun occ l =>
          match alookup l occ with
          | none => occ
          | some s => aupdate l (serase cid s) occ)
          (match alookup a occ1 with
          | none => occ1
          | some s => aupdate a (serase cid s) occ1) := by
      intro occ1
      rw [List.foldl_cons]
    rw [step]
    cases ha : alookup a occ with
    | none =>
      obtain ⟨ih1, ih2, ih3⟩ := ih occ
      exact ⟨ih1, ih2, ih3⟩
    | some s0 =>
      obtain ⟨ih1, ih2, ih3⟩ := ih (aupdate a (serase cid s0) occ)
      refine ⟨?_, ?_, ?_⟩
      · intro m hm
        refine ih1 m ?_
        by_cases he : m = a
        · subst he
          rw [hm] at ha
          exact absurd ha (by simp)
        · rw [alookup_aupdate_ne _ _ he]
          exact hm
      · intro m s' hs'
        obtain ⟨s1, hs1, hsub⟩ := ih2 m s' hs'
        by_cases he : m = a
        · subst he
          rw [alookup_aupdate_self] at hs1
          obtain rfl := Option.some.inj hs1
          refine ⟨s0, ha, ?_⟩
          intro id hid
          have := hsub id hid
          exact ((mem_serase _ _ _).mp this).1
        · rw [alookup_aupdate_ne _ _ he] at hs1
          exact ⟨s1, hs1, hsub⟩
      · intro m s hs id hid hne
        by_cases he : m = a
        · subst he
          rw [hs] at ha
          obtain rfl := Option.some.inj ha
          refine ih3 m (serase cid s) ?_ id ?_ hne
          · exact alookup_aupdate_self _ _ _
          · exact (mem_serase _ _ _).mpr ⟨hid, hne⟩
        · refine ih3 m s ?_ id hid hne
          rw [alookup_aupdate_ne _ _ he]
          exact hs

theorem alookup_aerase_some {κ α : Type} [DecidableEq κ] {k k' : κ}
    {l : List (κ × α)} {v : α} (h : alookup k (aerase k' l) = some v) :
    alookup k l = some v ∧ k ≠ k' := by
  by_cases he : k = k'
  · subst he
    rw [alookup_aerase_self] at h
    exact absurd h (by simp)
  · rw [alookup_aerase_ne _ he] at h
    exact ⟨h, he⟩

theorem rpGo_cons (cid : Nat) (rest : List Nat) (c : Cnf) :
    Cnf.removePositiveGo (cid :: rest) c =
      (match alookup cid c.clauses with
      | none => Cnf.removePositiveGo rest c
      | some clause => Cnf.removePositiveGo rest (rpStep cid clause c)) :=
  rfl

theorem rpGo_master {l : Lit} {ids : List Nat} {c : Cnf}
    (h1 : occSound c)
    (h2 : ∀ cid cl m, alookup cid c.clauses = some cl → m ∈ cl → m ≠ l →
      ∃ s, alookup m c.occurrences = some s ∧ cid ∈ s)
    (h3 : ∀ cid cl, alookup cid c.clauses = some cl → l ∈ cl → cid ∈ ids)
    (h4 : alookup l c.occurrences = none)
    (h5 : ∀ id ∈ ids, ∀ cl, alookup id c.clauses = some cl → l ∈ cl) :
    occSound (Cnf.removePositiveGo ids c) ∧
    occComplete (Cnf.removePositiveGo ids c) ∧
    alookup l (Cnf.removePositiveGo ids c).occurrences = none ∧
    (∀ cid cl, alookup cid (Cnf.removePositiveGo ids c).clauses = some cl →
      alookup cid c.clauses = some cl) ∧
    (∀ cid cl, alookup cid c.clauses = some cl →
      alookup cid (Cnf.removePositiveGo ids c).clauses = some cl ∨ l ∈ cl) ∧
    (∀ m, alookup m c.occurrences = none →
      alookup m (Cnf.removePositiveGo ids c).occurrences = none) := by
  induction ids generalizing c with
  | nil =>
    refine ⟨h1, ?_, h4, fun cid cl h => h, fun cid cl h => Or.inl h,
      fun m h => h⟩
    intro cid cl m hcl hm
    by_cases he : m = l
    · subst he
      exact absurd (h3 cid cl hcl hm) (by simp)
    · exact h2 cid cl m hcl hm he
  | cons cid rest ih =>
    rw [rpGo_cons]
    cases hv : alookup cid c.clauses with
    | none =>
      refine ih h1 h2 ?_ h4 ?_
      · intro cid' cl hcl hl
        rcases List.mem_cons.mp (h3 cid' cl hcl hl) with rfl | hmem
        · rw [hcl] at hv
          exact absurd hv (by simp)
        · exact hmem
      · intro id hid cl hcl
        exact h5 id (List.mem_cons_of_mem _ hid) cl hcl
    | some clause =>
      obtain ⟨f1, f2, f3⟩ := cleanupFold_facts clause cid c.occurrences
      have e1 : (rpStep cid clause c).clauses = aerase cid c.clauses := rfl
      have e2 : (rpStep cid clause c).occurrences =
          clause.foldl (fun occ l =>
            match alookup l occ with
            | none => occ
            | some s => aupdate l (serase cid s) occ) c.occurrences := rfl
      have h1' : occSound (rpStep cid clause c) := by
        intro m s'' id cl hm hid hcl
        rw [e2] at hm
        rw [e1] at hcl
        obtain ⟨hcl0, hne0⟩ := alookup_aerase_some hcl
        obtain ⟨s, hs, hsub⟩ := f2 m s'' hm
        exact h1 m s id cl hs (hsub id hid) hcl0
      have h2' : ∀ cid' cl m,
          alookup cid' (rpStep cid clause c).clauses = some cl → m ∈ cl →
          m ≠ l → ∃ s, alookup m (rpStep cid clause c).occurrences = some s ∧
            cid' ∈ s := by
        intro cid' cl m hcl hm hne
        rw [e1] at hcl
        rw [e2]
        obtain ⟨hcl0, hne0⟩ := alookup_aerase_some hcl
        obtain ⟨s, hs, hmem⟩ := h2 cid' cl m hcl0 hm hne
        exact f3 m s hs cid' hmem hne0
      have h3' : ∀ cid' cl,
          alookup cid' (rpStep cid clause c).clauses = some cl → l ∈ cl →
          cid' ∈ rest := by
        intro cid' cl hcl hl
        rw [e1] at hcl
        obtain ⟨hcl0, hne0⟩ := alookup_aerase_some hcl
        rcases List.mem_cons.mp (h3 cid' cl hcl0 hl) with rfl | hmem
        · exact absurd rfl hne0
        · exact hmem
      have h4' : alookup l (rpStep cid clause c).occurrences = none := by
        rw [e2]
        exact f1 l h4
      have h5' : ∀ id ∈ rest, ∀ cl,
          alookup id (rpStep cid clause c).clauses = some cl → l ∈ cl := by
        intro id hid cl hcl
        rw [e1] at hcl
        obtain ⟨hcl0, _⟩ := alookup_aerase_some hcl
        exact h5 id (List.mem_cons_of_mem _ hid) cl hcl0
      obtain ⟨g1, g2, g3, g4, g5, g6⟩ := ih h1' h2' h3' h4' h5'
      refine ⟨g1, g2, g3, ?_, ?_, ?_⟩
      · intro cid' cl hcl
        have := g4 cid' cl hcl
        rw [e1] at this
        exact (alookup_aerase_some this).1
      · intro cid' cl hcl
        by_cases he : cid' = cid
        · subst he
          rw [hcl] at hv
          obtain rfl := Option.some.inj hv
          exact Or.inr (h5 cid' (by simp) cl hcl)
        · refine g5 cid' cl ?_
          rw [e1, alookup_aerase_ne _ he]
          exact hcl
      · intro m hm
        refine g6 m ?_
        rw [e2]
        exact f1 m hm

theorem serase_self_not_mem {α : Type} [DecidableEq α] (a : α)
    (l : List α) : a ∉ serase a l := by
  intro h
  exact ((mem_serase _ _ _).mp h).2 rfl

theorem serase_idem {α : Type} [DecidableEq α] (a : α) (l : List α) :
    serase a (serase a l) = serase a l := by
  refine List.filter_eq_self.mpr ?_
  intro b hb
  simp only [ne_eq, decide_eq_true_eq]
  exact ((mem_serase _ _ _).mp hb).2

theorem rnStep_clauses (cid : Nat) (clause : List Lit) (l : Lit) (c : Cnf) :
    (rnStep cid clause l c).clauses =
      aupdate cid (serase l clause) (aerase cid c.clauses) := by
  unfold rnStep
  by_cases h : (serase l clause).length = 1 <;> simp [h]

theorem rnStep_occ (cid : Nat) (clause : List Lit) (l : Lit) (c : Cnf) :
    (rnStep cid clause l c).occurrences = c.occurrences := by
  unfold rnStep
  by_cases h : (serase l clause).length = 1 <;> simp [h]

theorem rnGo_cons (l : Lit) (cid : Nat) (rest : List Nat) (c : Cnf) :
    Cnf.removeNegationGo l (cid :: rest) c =
      (match alookup cid c.clauses with
      | none => Cnf.removeNegationGo l rest c
      | some clause =>
        if (serase l clause).length = 0 then
          (some cid, { c with clauses := aerase cid c.clauses })
        else Cnf.removeNegationGo l rest (rnStep cid clause l c)) :=
  rfl

theorem rnGo_master {l : Lit} {ids : List Nat} {c c' : Cnf}
    (hres : Cnf.removeNegationGo l ids c = (none, c'))
    (h1 : occSound c)
    (h2 : ∀ cid cl m, alookup cid c.clauses = some cl → m ∈ cl → m ≠ l →
      ∃ s, alookup m c.occurrences = some s ∧ cid ∈ s)
    (h3 : ∀ cid cl, alookup cid c.clauses = some cl → l ∈ cl → cid ∈ ids)
    (h4 : alookup l c.occurrences = none) :
    occSound c' ∧ occComplete c' ∧
    c'.occurrences = c.occurrences ∧
    (∀ cid cl', alookup cid c'.clauses = some cl' →
      ∃ cl, alookup cid c.clauses = some cl ∧
        (cl' = cl ∨ cl' = serase l cl)) ∧
    (∀ cid cl, alookup cid c.clauses = some cl →
      ∃ cl', alookup cid c'.clauses = some cl' ∧
        (cl' = cl ∨ cl' = serase l cl)) := by
  induction ids generalizing c with
  | nil =>
    simp only [Cnf.removeNegationGo] at hres
    obtain ⟨_, rfl⟩ := Prod.mk.injEq _ _ _ _ ▸ hres
    refine ⟨h1, ?_, rfl, fun cid cl' h => ⟨cl', h, Or.inl rfl⟩,
      fun cid cl h => ⟨cl, h, Or.inl rfl⟩⟩
    intro cid cl m hcl hm
    by_cases he : m = l
    · subst he
      exact absurd (h3 cid cl hcl hm) (by simp)
    · exact h2 cid cl m hcl hm he
  | cons cid rest ih =>
    rw [rnGo_cons] at hres
    cases hv : alookup cid c.clauses with
    | none =>
      rw [hv] at hres
      refine ih hres h1 h2 ?_ h4
      intro cid' cl hcl hl
      rcases List.mem_cons.mp (h3 cid' cl hcl hl) with rfl | hmem
      · rw [hcl] at hv
        exact absurd hv (by simp)
      · exact hmem
    | some clause =>
      rw [hv] at hres
      dsimp only at hres
      by_cases h0 : (serase l clause).length = 0
      · rw [if_pos h0] at hres
        exact absurd (Prod.mk.injEq _ _ _ _ ▸ hres).1 (by simp)
      · rw [if_neg h0] at hres
        have e1 := rnStep_clauses cid clause l c
        have e2 := rnStep_occ cid clause l c
        have hml : ∀ m s, alookup m c.occurrences = some s → m ≠ l := by
          intro m s hs he
          subst he
          rw [hs] at h4
          exact absurd h4 (by simp)
        have hlook : ∀ cid' cl',
            alookup cid' (rnStep cid clause l c).clauses = some cl' →
            (cid' = cid ∧ cl' = serase l clause) ∨
            (cid' ≠ cid ∧ alookup cid' c.clauses = some cl') := by
          intro cid' cl' hcl'
          rw [e1] at hcl'
          by_cases he : cid' = cid
          · subst he
            rw [alookup_aupdate_self] at hcl'
            exact Or.inl ⟨rfl, (Option.some.inj hcl').symm⟩
          · rw [alookup_aupdate_ne _ _ he] at hcl'
            exact Or.inr ⟨he, (alookup_aerase_some hcl').1⟩
        have h1' : occSound (rnStep cid clause l c) := by
          intro m s id cl hm hid hcl
          rw [e2] at hm
          rcases hlook id cl hcl with ⟨rfl, rfl⟩ | ⟨hne, hcl0⟩
          · refine (mem_serase _ _ _).mpr ⟨?_, hml m s hm⟩
            exact h1 m s id clause hm hid hv
          · exact h1 m s id cl hm hid hcl0
        have h2' : ∀ cid' cl m,
            alookup cid' (rnStep cid clause l c).clauses = some cl →
            m ∈ cl → m ≠ l →
            ∃ s, alookup m (rnStep cid clause l c).occurrences = some s ∧
              cid' ∈ s := by
          intro cid' cl m hcl hm hne
          rw [e2]
          rcases hlook cid' cl hcl with ⟨rfl, rfl⟩ | ⟨hne', hcl0⟩
          · exact h2 cid' clause m hv ((mem_serase _ _ _).mp hm).1 hne
          · exact h2 cid' cl m hcl0 hm hne
        have h3' : ∀ cid' cl,
            alookup cid' (rnStep cid clause l c).clauses = some cl →
            l ∈ cl → cid' ∈ rest := by
          intro cid' cl hcl hl
          rcases hlook cid' cl hcl with ⟨rfl, rfl⟩ | ⟨hne', hcl0⟩
          · exact absurd hl (serase_self_not_mem _ _)
          · rcases List.mem_cons.mp (h3 cid' cl hcl0 hl) with rfl | hmem
            · exact absurd rfl hne'
            · exact hmem
        have h4' : alookup l (rnStep cid clause l c).occurrences = none := by
          rw [e2]
          exact h4
        obtain ⟨g1, g2, g3, g4, g5⟩ := ih hres h1' h2' h3' h4'
        refine ⟨g1, g2, by rw [g3, e2], ?_, ?_⟩
        · intro cid' cl' hcl'
          obtain ⟨cl1, hcl1, hor1⟩ := g4 cid' cl' hcl'
          rcases hlook cid' cl1 hcl1 with ⟨rfl, rfl⟩ | ⟨hne', hcl0⟩
          · refine ⟨clause, hv, Or.inr ?_⟩
            rcases hor1 with rfl | rfl
            · rfl
            · exact serase_idem _ _
          · exact ⟨cl1, hcl0, hor1⟩
        · intro cid' cl hcl
          by_cases he : cid' = cid
          · subst he
            rw [hcl] at hv
            obtain rfl := Option.some.inj hv
            obtain ⟨cl', hcl', hor⟩ := g5 cid' (serase l cl) (by
              rw [e1]
              exact alookup_aupdate_self _ _ _)
            refine ⟨cl', hcl', Or.inr ?_⟩
            rcases hor with rfl | rfl
            · rfl
            · exact serase_idem _ _
          · obtain ⟨cl', hcl', hor⟩ := g5 cid' cl (by
              rw [e1, alookup_aupdate_ne _ _ he, alookup_aerase_ne _ he]
              exact hcl)
            exact ⟨cl', hcl', hor⟩

theorem Lit.neg_ne (l : Lit) : l ≠ l.neg := by
  intro h
  have : l.positive = (!l.positive) := congrArg Lit.positive h
  cases hb : l.positive <;> rw [hb] at this <;> exact absurd this (by simp)

theorem eq_or_neg_of_index_eq {m l : Lit} (h : m.index = l.index) :
    m = l ∨ m = l.neg := by
  obtain ⟨mi, mb⟩ := m
  obtain ⟨li, lb⟩ := l
  simp only at h
  subst h
  cases mb <;> cases lb <;> simp [Lit.neg]

theorem removePositive_master {c : Cnf} (l : Lit)
    (h1 : occSound c) (h2 : occComplete c) :
    occSound (c.removePositive l) ∧
    occComplete (c.removePositive l) ∧
    alookup l (c.removePositive l).occurrences = none ∧
    (∀ cid cl, alookup cid (c.removePositive l).clauses = some cl →
      alookup cid c.clauses = some cl) ∧
    (∀ cid cl, alookup cid c.clauses = some cl →
      alookup cid (c.removePositive l).clauses = some cl ∨ l ∈ cl) ∧
    (∀ m, alookup m c.occurrences = none →
      alookup m (c.removePositive l).occurrences = none) := by
  unfold Cnf.removePositive
  cases hv : alookup l c.occurrences with
  | none =>
    exact ⟨h1, h2, hv, fun cid cl h => h, fun cid cl h => Or.inl h,
      fun m h => h⟩
  | some occurs =>
    dsimp only
    have h1' : occSound
        ({ c with occurrences := aerase l c.occurrences } : Cnf) := by
      intro m s id cl hm hid hcl
      obtain ⟨hm0, _⟩ := alookup_aerase_some hm
      exact h1 m s id cl hm0 hid hcl
    have h2' : ∀ cid cl m, alookup cid
        ({ c with occurrences := aerase l c.occurrences } : Cnf).clauses =
          some cl → m ∈ cl → m ≠ l →
        ∃ s, alookup m ({ c with occurrences := aerase l c.occurrences }
          : Cnf).occurrences = some s ∧ cid ∈ s := by
      intro cid cl m hcl hm hne
      obtain ⟨s, hs, hmem⟩ := h2 cid cl m hcl hm
      refine ⟨s, ?_, hmem⟩
      show alookup m (aerase l c.occurrences) = some s
      rw [alookup_aerase_ne _ hne]
      exact hs
    have h3' : ∀ cid cl, alookup cid
        ({ c with occurrences := aerase l c.occurrences } : Cnf).clauses =
          some cl → l ∈ cl → cid ∈ occurs := by
      intro cid cl hcl hl
      obtain ⟨s, hs, hmem⟩ := h2 cid cl l hcl hl
      rw [hs] at hv
      obtain rfl := Option.some.inj hv
      exact hmem
    have h4' : alookup l ({ c with occurrences := aerase l c.occurrences }
        : Cnf).occurrences = none := alookup_aerase_self _ _
    have h5' : ∀ id ∈ occurs, ∀ cl, alookup id
        ({ c with occurrences := aerase l c.occurrences } : Cnf).clauses =
          some cl → l ∈ cl := by
      intro id hid cl hcl
      exact h1 l occurs id cl hv hid hcl
    obtain ⟨g1, g2, g3, g4, g5, g6⟩ := rpGo_master h1' h2' h3' h4' h5'
    refine ⟨g1, g2, g3, g4, g5, ?_⟩
    intro m hm
    refine g6 m ?_
    show alookup m (aerase l c.occurrences) = none
    by_cases he : m = l
    · subst he
      exact alookup_aerase_self _ _
    · rw [alookup_aerase_ne _ he]
      exact hm

theorem removeNegation_master {c c' : Cnf} {l : Lit}
    (hres : c.removeNegation l = (none, c'))
    (h1 : occSound c) (h2 : occComplete c) :
    occSound c' ∧ occComplete c' ∧
    c'.occurrences = aerase l c.occurrences ∧
    (∀ cid cl', alookup cid c'.clauses = some cl' →
      ∃ cl, alookup cid c.clauses = some cl ∧
        (cl' = cl ∨ cl' = serase l cl)) ∧
    (∀ cid cl, alookup cid c.clauses = some cl →
      ∃ cl', alookup cid c'.clauses = some cl' ∧
        (cl' = cl ∨ cl' = serase l cl)) := by
  unfold Cnf.removeNegation at hres
  cases hv : alookup l c.occurrences with
  | none =>
    rw [hv] at hres
    obtain ⟨_, rfl⟩ := Prod.mk.injEq _ _ _ _ ▸ hres
    refine ⟨h1, h2, ?_, fun cid cl' h => ⟨cl', h, Or.inl rfl⟩,
      fun cid cl h => ⟨cl, h, Or.inl rfl⟩⟩
    rw [aerase_eq_of_not_mem]
    rw [← alookup_eq_none_iff_not_mem]
    exact hv
  | some occurs =>
    rw [hv] at hres
    have hgo := rnGo_master hres ?_ ?_ ?_ ?_
    · obtain ⟨g1, g2, g3, g4, g5⟩ := hgo
      exact ⟨g1, g2, g3, g4, g5⟩
    · intro m s id cl hm hid hcl
      obtain ⟨hm0, _⟩ := alookup_aerase_some hm
      exact h1 m s id cl hm0 hid hcl
    · intro cid cl m hcl hm hne
      obtain ⟨s, hs, hmem⟩ := h2 cid cl m hcl hm
      refine ⟨s, ?_, hmem⟩
      rw [alookup_aerase_ne _ hne]
      exact hs
    · intro cid cl hcl hl
      obtain ⟨s, hs, hmem⟩ := h2 cid cl l hcl hl
      rw [hs] at hv
      obtain rfl := Option.some.inj hv
      exact hmem
    · exact alookup_aerase_self _ _

theorem propagation_master {c c' : Cnf} {l : Lit}
    (hres : c.propagation l = (none, c'))
    (h1 : occSound c) (h2 : occComplete c) :
    occSound c' ∧ occComplete c' ∧
    alookup l c'.occurrences = none ∧
    alookup l.neg c'.occurrences = none ∧
    (∀ S : Lit → Prop, S l →
      (∀ cid cl, alookup cid c'.clauses = some cl → ∃ m ∈ cl, S m) →
      ∀ cid cl, alookup cid c.clauses = some cl → ∃ m ∈ cl, S m) ∧
    (∀ cid cl', alookup cid c'.clauses = some cl' →
      ∃ cl, alookup cid c.clauses = some cl ∧ ∀ m ∈ cl', m ∈ cl) ∧
    (∀ m, alookup m c.occurrences = none →
      alookup m c'.occurrences = none) ∧
    (∀ cid cl', alookup cid c'.clauses = some cl' →
      ∀ m ∈ cl', m.index ≠ l.index) := by
  unfold Cnf.propagation at hres
  obtain ⟨p1, p2, p3, p4, p5, p6⟩ := removePositive_master l h1 h2
  obtain ⟨n1, n2, n3, n4, n5⟩ := removeNegation_master hres p1 p2
  have hknone : alookup l c'.occurrences = none := by
    rw [n3]
    rw [alookup_aerase_ne _ (Lit.neg_ne l)]
    exact p3
  have hknneg : alookup l.neg c'.occurrences = none := by
    rw [n3]
    exact alookup_aerase_self _ _
  have hnol : ∀ cid cl', alookup cid c'.clauses = some cl' → l ∉ cl' := by
    intro cid cl' hcl' hl
    obtain ⟨s, hs, _⟩ := n2 cid cl' l hcl' hl
    rw [hknone] at hs
    exact absurd hs (by simp)
  have hnonl : ∀ cid cl', alookup cid c'.clauses = some cl' →
      l.neg ∉ cl' := by
    intro cid cl' hcl' hl
    obtain ⟨s, hs, _⟩ := n2 cid cl' l.neg hcl' hl
    rw [hknneg] at hs
    exact absurd hs (by simp)
  refine ⟨n1, n2, hknone, hknneg, ?_, ?_, ?_, ?_⟩
  · intro S hSl hall cid cl hcl
    rcases p5 cid cl hcl with hsurv | hl
    · obtain ⟨cl', hcl', hor⟩ := n5 cid cl hsurv
      obtain ⟨m, hm, hSm⟩ := hall cid cl' hcl'
      refine ⟨m, ?_, hSm⟩
      rcases hor with rfl | rfl
      · exact hm
      · exact ((mem_serase _ _ _).mp hm).1
    · exact ⟨l, hl, hSl⟩
  · intro cid cl' hcl'
    obtain ⟨cl, hcl, hor⟩ := n4 cid cl' hcl'
    refine ⟨cl, p4 cid cl hcl, ?_⟩
    intro m hm
    rcases hor with rfl | rfl
    · exact hm
    · exact ((mem_serase _ _ _).mp hm).1
  · intro m hm
    rw [n3]
    by_cases he : m = l.neg
    · subst he
      exact alookup_aerase_self _ _
    · rw [alookup_aerase_ne _ he]
      exact p6 m hm
  · intro cid cl' hcl' m hm hidx
    rcases eq_or_neg_of_index_eq hidx with rfl | rfl
    · exact hnol cid cl' hcl' hm
    · exact hnonl cid cl' hcl' hm

theorem unitPropagation_ok_none {c : Cnf} {cid : Nat} {c' : Cnf}
    (hres : c.unitPropagation cid = .ok (none, c')) : c' = c := by
  unfold Cnf.unitPropagation at hres
  split at hres
  · exact (Prod.mk.injEq _ _ _ _ ▸ Res.ok.inj hres).2.symm
  · split at hres
    · rename_i l
      dsimp only at hres
      split at hres
      · exact absurd hres (by simp)
      · exact absurd (Prod.mk.injEq _ _ _ _ ▸ Res.ok.inj hres).1 (by simp)
    · exact absurd hres (by simp)

theorem unitPropagation_master_some {c : Cnf} {cid : Nat} {l : Lit}
    {c' : Cnf} (hres : c.unitPropagation cid = .ok (some l, c'))
    (h1 : occSound c) (h2 : occComplete c) :
    occSound c' ∧ occComplete c' ∧
    alookup l c'.occurrences = none ∧
    alookup l.neg c'.occurrences = none ∧
    (∀ S : Lit → Prop, S l →
      (∀ id cl, alookup id c'.clauses = some cl → ∃ m ∈ cl, S m) →
      ∀ id cl, alookup id c.clauses = some cl → ∃ m ∈ cl, S m) ∧
    (∀ id cl', alookup id c'.clauses = some cl' →
      ∃ cl, alookup id c.clauses = some cl ∧ ∀ m ∈ cl', m ∈ cl) ∧
    (∀ m, alookup m c.occurrences = none →
      alookup m c'.occurrences = none) ∧
    (∀ id cl', alookup id c'.clauses = some cl' →
      ∀ m ∈ cl', m.index ≠ l.index) := by
  unfold Cnf.unitPropagation at hres
  split at hres
  · exact absurd (Prod.mk.injEq _ _ _ _ ▸ Res.ok.inj hres).1 (by simp)
  · rename_i clause hclause
    split at hres
    · rename_i l0
      dsimp only at hres
      split at hres
      · rename_i cid' cstate hprop
        exact absurd hres (by simp)
      · rename_i cstate hprop
        obtain ⟨hl0, hc'⟩ := Prod.mk.injEq _ _ _ _ ▸ Res.ok.inj hres
        obtain rfl : l0 = l := Option.some.inj hl0
        subst hc'
        have e1 : ({ c with
            clauses := aerase cid c.clauses,
            nClause := c.nClause - 1 } : Cnf).clauses =
          aerase cid c.clauses := rfl
        have h1' : occSound ({ c with
            clauses := aerase cid c.clauses,
            nClause := c.nClause - 1 } : Cnf) := by
          intro m s id cl hm hid hcl
          rw [e1] at hcl
          exact h1 m s id cl hm hid (alookup_aerase_some hcl).1
        have h2' : occComplete ({ c with
            clauses := aerase cid c.clauses,
            nClause := c.nClause - 1 } : Cnf) := by
          intro id cl m hcl hm
          rw [e1] at hcl
          exact h2 id cl m (alookup_aerase_some hcl).1 hm
        obtain ⟨g1, g2, g3, g4, g5, g6, g7, g8⟩ :=
          propagation_master hprop h1' h2'
        refine ⟨g1, g2, g3, g4, ?_, ?_, ?_, g8⟩
        · intro S hSl hall id cl hcl
          by_cases he : id = cid
          · subst he
            rw [hcl] at hclause
            obtain rfl := Option.some.inj hclause
            exact ⟨_, by simp, hSl⟩
          · refine g5 S hSl hall id cl ?_
            rw [e1, alookup_aerase_ne _ he]
            exact hcl
        · intro id cl' hcl'
          obtain ⟨cl, hcl, hsub⟩ := g6 id cl' hcl'
          rw [e1] at hcl
          exact ⟨cl, (alookup_aerase_some hcl).1, hsub⟩
        · intro m hm
          exact g7 m hm
    · exact absurd hres (by simp)

theorem unitPropagations_master {fuel : Nat} {c : Cnf} {lits : List Lit}
    {c' : Cnf} (hres : Cnf.unitPropagations fuel c = .ok (lits, c'))
    (h1 : occSound c) (h2 : occComplete c) :
    occSound c' ∧ occComplete c' ∧
    (∀ S : Lit → Prop, (∀ l ∈ lits, S l) →
      (∀ id cl, alookup id c'.clauses = some cl → ∃ m ∈ cl, S m) →
      ∀ id cl, alookup id c.clauses = some cl → ∃ m ∈ cl, S m) ∧
    (∀ id cl', alookup id c'.clauses = some cl' →
      ∃ cl, alookup id c.clauses = some cl ∧ ∀ m ∈ cl', m ∈ cl) ∧
    (∀ m, alookup m c.occurrences = none →
      alookup m c'.occurrences = none) ∧
    (∀ l ∈ lits, alookup l c'.occurrences = none ∧
      alookup l.neg c'.occurrences = none ∧
      (∀ id cl', alookup id c'.clauses = some cl' →
        ∀ m ∈ cl', m.index ≠ l.index)) := by
  induction fuel generalizing c lits with
  | zero => exact absurd hres (by simp [Cnf.unitPropagations])
  | succ fuel ih =>
    simp only [Cnf.unitPropagations] at hres
    split at hres
    · obtain ⟨rfl, rfl⟩ := Prod.mk.injEq _ _ _ _ ▸ Res.ok.inj hres
      exact ⟨h1, h2, fun S _ hall => hall,
        fun id cl' hcl' => ⟨cl', hcl', fun m hm => hm⟩,
        fun m hm => hm, fun l hl => absurd hl (by simp)⟩
    · rename_i cid rest
      split at hres
      · exact absurd hres (by simp)
      · exact absurd hres (by simp)
      · exact absurd hres (by simp)
      · rename_i optLit c1 hup
        split at hres
        · rename_i lits1 c2 hups
          obtain ⟨hl, rfl⟩ := Prod.mk.injEq _ _ _ _ ▸ Res.ok.inj hres
          cases optLit with
          | none =>
            obtain rfl := unitPropagation_ok_none hup
            simp only at hl
            subst hl
            obtain ⟨k1, k2, k3, k4, k5, k6⟩ := ih hups (by exact h1)
              (by exact h2)
            exact ⟨k1, k2, k3, k4, k5, k6⟩
          | some l =>
            simp only at hl
            subst hl
            obtain ⟨g1, g2, g3, g4, g5, g6, g7, g8⟩ :=
              unitPropagation_master_some hup h1 h2
            obtain ⟨k1, k2, k3, k4, k5, k6⟩ := ih hups (by exact g1) (by exact g2)
            refine ⟨k1, k2, ?_, ?_, ?_, ?_⟩
            · intro S hS hall id cl hcl
              refine g5 S (hS l (by simp)) ?_ id cl hcl
              exact k3 S (fun m hm => hS m (by simp [hm])) hall
            · intro id cl' hcl'
              obtain ⟨clm, hclm, hsub1⟩ := k4 id cl' hcl'
              obtain ⟨cl, hcl, hsub2⟩ := g6 id clm hclm
              exact ⟨cl, hcl, fun m hm => hsub2 m (hsub1 m hm)⟩
            · intro m hm
              exact k5 m (g7 m hm)
            · intro l' hl'
              rcases List.mem_cons.mp hl' with rfl | hl'
              · refine ⟨k5 l' g3, k5 l'.neg g4, ?_⟩
                intro id cl' hcl' m hm
                obtain ⟨clm, hclm, hsub⟩ := k4 id cl' hcl'
                exact g8 id clm hclm m (hsub m hm)
              · exact k6 l' hl'
        · exact absurd hres (by simp)
        · exact absurd hres (by simp)
        · exact absurd hres (by simp)

theorem addFold_facts (L : List Lit) (cid : Nat)
    (occ : List (Lit × List Nat)) :
    (∀ m, m ∉ L → alookup m (L.foldl (fun occ l =>
        aupdate l (sinsert cid ((alookup l occ).getD [])) occ) occ) =
      alookup m occ) ∧
    (∀ m s, alookup m occ = some s →
      ∃ s', alookup m (L.foldl (fun occ l =>
        aupdate l (sinsert cid ((alookup l occ).getD [])) occ) occ) =
          some s' ∧ ∀ id ∈ s, id ∈ s') ∧
    (∀ m, m ∈ L → ∃ s', alookup m (L.foldl (fun occ l =>
        aupdate l (sinsert cid ((alookup l occ).getD [])) occ) occ) =
          some s' ∧ cid ∈ s') ∧
    (∀ m s', alookup m (L.foldl (fun occ l =>
        aupdate l (sinsert cid ((alookup l occ).getD [])) occ) occ) =
          some s' → ∀ id ∈ s', id = cid ∨
        ∃ s, alookup m occ = some s ∧ id ∈ s) := by
  induction L generalizing occ with
  | nil =>
    refine ⟨fun m _ => rfl, fun m s h => ⟨s, h, fun id hid => hid⟩,
      fun m hm => absurd hm (by simp), ?_⟩
    intro m s' h id hid
    exact Or.inr ⟨s', h, hid⟩
  | cons a L ih =>
    rw [List.foldl_cons]
    obtain ⟨ih1, ih3, ih2, ih4⟩ :=
      ih (aupdate a (sinsert cid ((alookup a occ).getD [])) occ)
    have hstep : ∀ m, m ≠ a →
        alookup m (aupdate a (sinsert cid ((alookup a occ).getD [])) occ) =
        alookup m occ := by
      intro m hm
      exact alookup_aupdate_ne _ _ hm
    refine ⟨?_, ?_, ?_, ?_⟩
    · intro m hm
      have hma : m ≠ a := fun he => hm (he ▸ List.mem_cons_self _ _)
      have hmL : m ∉ L := fun he => hm (List.mem_cons_of_mem _ he)
      rw [ih1 m hmL, hstep m hma]
    · intro m s hs
      by_cases he : m = a
      · subst he
        refine (ih3 m (sinsert cid ((alookup m occ).getD []))
          (alookup_aupdate_self _ _ _)).imp ?_
        intro s' ⟨h1, h2⟩
        refine ⟨h1, ?_⟩
        intro id hid
        refine h2 id ?_
        rw [hs]
        exact (mem_sinsert _ _ _).mpr (Or.inr hid)
      · rw [← hstep m he] at hs
        exact ih3 m s hs
    · intro m hm
      rcases List.mem_cons.mp hm with rfl | hmL
      · obtain ⟨s', h1, h2⟩ := ih3 m (sinsert cid ((alookup m occ).getD []))
          (alookup_aupdate_self _ _ _)
        exact ⟨s', h1, h2 cid ((mem_sinsert _ _ _).mpr (Or.inl rfl))⟩
      · exact ih2 m hmL
    · intro m s' hs' id hid
      rcases ih4 m s' hs' id hid with rfl | ⟨s1, hs1, hid1⟩
      · exact Or.inl rfl
      · by_cases he : m = a
        · subst he
          rw [alookup_aupdate_self] at hs1
          obtain rfl := Option.some.inj hs1
          rcases (mem_sinsert _ _ _).mp hid1 with rfl | hid2
          · exact Or.inl rfl
          · cases ho : alookup m occ with
            | none =>
              rw [ho] at hid2
              exact absurd hid2 (by simp)
            | some s0 =>
              rw [ho] at hid2
              exact Or.inr ⟨s0, rfl, hid2⟩
        · rw [hstep m he] at hs1
          exact Or.inr ⟨s1, hs1, hid1⟩

theorem addClause_built {c : Cnf} (cl : List Lit)
    (hk : keysOkL c.clauses) (hidl : occIdsLt c)
    (h1 : occSound c) (h2 : occComplete c) :
    keysOkL (c.addClause cl).clauses ∧ occIdsLt (c.addClause cl) ∧
    occSound (c.addClause cl) ∧ occComplete (c.addClause cl) := by
  obtain ⟨af1, af3, af2, af4⟩ :=
    addFold_facts (mkSet cl) c.clauses.length c.occurrences
  have ecl : (c.addClause cl).clauses =
      aupdate c.clauses.length (mkSet cl) c.clauses := rfl
  have eocc : (c.addClause cl).occurrences =
      (mkSet cl).foldl (fun occ l =>
        aupdate l (sinsert c.clauses.length
          ((alookup l occ).getD [])) occ) c.occurrences := by
    unfold Cnf.addClause
    by_cases h : (mkSet cl).length = 1 <;> simp [h]
  have hlen : (c.addClause cl).clauses.length = c.clauses.length + 1 := by
    rw [ecl]
    refine aupdate_length_of_not_mem _ ?_
    rw [← alookup_isSome_iff_mem, hk.2]
    omega
  refine ⟨keysOkL_aupdate_fresh hk _, ?_, ?_, ?_⟩
  · intro m ids hm id hid
    rw [eocc] at hm
    rw [hlen]
    rcases af4 m ids hm id hid with rfl | ⟨s, hs, hids⟩
    · omega
    · have := hidl m s hs id hids
      omega
  · intro m s id icl hm hid hicl
    rw [eocc] at hm
    rw [ecl] at hicl
    rcases af4 m s hm id hid with rfl | ⟨s0, hs0, hid0⟩
    · rw [alookup_aupdate_self] at hicl
      obtain rfl := Option.some.inj hicl
      by_cases hmm : m ∈ mkSet cl
      · exact hmm
      · rw [af1 m hmm] at hm
        have hcon := hidl m s hm _ hid
        omega
    · have hne : id ≠ c.clauses.length := by
        have := hidl m s0 hs0 id hid0
        omega
      rw [alookup_aupdate_ne _ _ hne] at hicl
      exact h1 m s0 id icl hs0 hid0 hicl
  · intro id icl m hicl hm
    rw [ecl] at hicl
    rw [eocc]
    by_cases he : id = c.clauses.length
    · subst he
      rw [alookup_aupdate_self] at hicl
      obtain rfl := Option.some.inj hicl
      exact af2 m hm
    · rw [alookup_aupdate_ne _ _ he] at hicl
      obtain ⟨s, hs, hmem⟩ := h2 id icl m hicl hm
      obtain ⟨s', hs', hsub⟩ := af3 m s hs
      exact ⟨s', hs', hsub id hmem⟩

theorem builtA_inv {c : Cnf} (h : BuiltA c) :
    keysOkL c.clauses ∧ occIdsLt c ∧ occSound c ∧ occComplete c := by
  induction h with
  | base n m =>
    refine ⟨keysOkL_nil, ?_, ?_, ?_⟩
    · intro l ids hl
      exact absurd hl (by simp [Cnf.new, alookup])
    · intro l ids cid icl hl
      exact absurd hl (by simp [Cnf.new, alookup])
    · intro cid icl m hicl
      exact absurd hicl (by simp [Cnf.new, alookup])
  | add cl _ ih =>
    obtain ⟨hk, hidl, h1, h2⟩ := ih
    exact addClause_built cl hk hidl h1 h2

theorem builtA_foldl (L : List (List Lit)) {c0 : Cnf} (h : BuiltA c0) :
    BuiltA (L.foldl Cnf.addClause c0) := by
  induction L generalizing c0 with
  | nil => exact h
  | cons a t ih => exact ih (BuiltA.add a h)

theorem builtA_fromClauses (v : Clauses) : BuiltA (Cnf.fromClauses v) :=
  builtA_foldl _ (BuiltA.base _ _)

/-- C4 amended: in every Variant-A formula state reachable from a freshly
constructed formula by add_clause (construction) and Ok-returning
propagation / unit-propagation operations, the occurrence index is sound and
complete at the level of clause ids: an id listed under a literal whose
clause is still in the database contains that literal, and every literal of
every clause in the database is indexed under that clause's id.  (The
claimed if-and-only-if between having an entry and being contained in some
active clause fails: entries can outlive their literal with an empty id set
— see the counterexample.) -/
theorem c4_occurrence_invariant {c : Cnf} (h : ReachA c) :
    occSound c ∧ occComplete c := by
  induction h with
  | ofBuilt hb =>
    obtain ⟨_, _, h1, h2⟩ := builtA_inv hb
    exact ⟨h1, h2⟩
  | prop l hR heq ih =>
    obtain ⟨g1, g2, _⟩ := propagation_master heq ih.1 ih.2
    exact ⟨g1, g2⟩
  | unitP cid ol hR heq ih =>
    cases ol with
    | none =>
      obtain rfl := unitPropagation_ok_none heq
      exact ih
    | some l =>
      obtain ⟨g1, g2, _⟩ := unitPropagation_master_some heq ih.1 ih.2
      exact ⟨g1, g2⟩
  | unitPs fuel ls hR heq ih =>
    obtain ⟨g1, g2, _⟩ := unitPropagations_master heq ih.1 ih.2
    exact ⟨g1, g2⟩

/-- Witness for the amended C4 theorem at a reachable state: the formula
loaded from [[1,2]] after successfully propagating literal 1 (the state of
the counterexample, where the id-level invariant holds although literal 2
retains an empty entry). -/
theorem c4_occurrence_invariant_witness :
    occSound ((Cnf.fromClauses ⟨[[⟨0, true⟩, ⟨1, true⟩]], 2, 2⟩).propagation
      ⟨0, true⟩).2 ∧
    occComplete ((Cnf.fromClauses
      ⟨[[⟨0, true⟩, ⟨1, true⟩]], 2, 2⟩).propagation ⟨0, true⟩).2 :=
  c4_occurrence_invariant
    (ReachA.prop ⟨0, true⟩
      (ReachA.ofBuilt (builtA_fromClauses ⟨[[⟨0, true⟩, ⟨1, true⟩]], 2, 2⟩))
      (by decide))

/-! ### Assignment-tracker lemmas (Claim C1) -/

theorem getD_set_self {α : Type} (xs : List α) (i : Nat) (v d : α)
    (h : i < xs.length) : (xs.set i v).getD i d = v := by
  rw [List.getD_eq_getElem?_getD, List.getElem?_set_self]
  · simp
  · simpa using h

theorem getD_set_ne {α : Type} (xs : List α) {i j : Nat} (v d : α)
    (h : i ≠ j) : (xs.set i v).getD j d = xs.getD j d := by
  rw [List.getD_eq_getElem?_getD, List.getD_eq_getElem?_getD,
    List.getElem?_set_ne h]

theorem getD_replicate_none (n i : Nat) :
    (List.replicate n (none : Option Bool)).getD i none = none := by
  rw [List.getD_eq_getElem?_getD]
  cases h : (List.replicate n (none : Option Bool))[i]? with
  | none => rfl
  | some v =>
    have := List.getElem?_mem h
    simp [List.eq_of_mem_replicate this]

theorem satLit_extends {sol sol' : PartialSolution} {l : Lit}
    (h : sol.satLit l = true) (he : sol.Extends sol') :
    sol'.satLit l = true := by
  unfold PartialSolution.satLit at h ⊢
  simp only [decide_eq_true_eq] at h ⊢
  exact he l.index l.positive h

theorem assignLit_spec {sol : PartialSolution} {l : Lit}
    {sol₁ : PartialSolution} (h : sol.assignLit l = some sol₁) :
    sol₁.satLit l = true ∧
    (∀ i, i ≠ l.index →
      sol₁.solution.getD i none = sol.solution.getD i none) ∧
    sol₁.solution.length = sol.solution.length := by
  unfold PartialSolution.assignLit at h
  split at h
  · rename_i hlen
    obtain rfl := Option.some.inj h
    refine ⟨?_, ?_, by simp⟩
    · unfold PartialSolution.satLit
      simp only [decide_eq_true_eq]
      exact getD_set_self _ _ _ _ hlen
    · intro i hi
      exact getD_set_ne _ _ _ (fun he => hi he.symm)
  · exact absurd h (by simp)

theorem assignLit_extends_of_unassigned {sol : PartialSolution} {l : Lit}
    {sol₁ : PartialSolution} (h : sol.assignLit l = some sol₁)
    (hun : sol.solution.getD l.index none = none) :
    sol.Extends sol₁ := by
  obtain ⟨h1, h2, h3⟩ := assignLit_spec h
  intro i b hib
  by_cases he : i = l.index
  · subst he
    rw [hun] at hib
    exact absurd hib (by simp)
  · rw [h2 i he]
    exact hib

theorem assignLit_extends_of_sat {sol : PartialSolution} {l : Lit}
    {sol₁ : PartialSolution} (h : sol.assignLit l = some sol₁)
    (hsat : sol.satLit l = true) :
    sol.Extends sol₁ := by
  obtain ⟨h1, h2, h3⟩ := assignLit_spec h
  unfold PartialSolution.satLit at hsat h1
  simp only [decide_eq_true_eq] at hsat h1
  intro i b hib
  by_cases he : i = l.index
  · subst he
    rw [hsat] at hib
    obtain rfl := Option.some.inj hib
    exact h1
  · rw [h2 i he]
    exact hib

theorem extends_refl (sol : PartialSolution) : sol.Extends sol :=
  fun _ _ h => h

theorem extends_trans {a b c : PartialSolution} (h1 : a.Extends b)
    (h2 : b.Extends c) : a.Extends c :=
  fun i v h => h2 i v (h1 i v h)

theorem assignAll_facts {lits : List Lit} {sol sol₁ : PartialSolution}
    (h : assignAll sol lits = some sol₁)
    (hdist : List.Pairwise (fun a b => a.index ≠ b.index) lits)
    (hunass : ∀ l ∈ lits, sol.solution.getD l.index none = none) :
    sol.Extends sol₁ ∧ (∀ l ∈ lits, sol₁.satLit l = true) ∧
    (∀ i, (sol₁.solution.getD i none).isSome →
      (sol.solution.getD i none).isSome ∨ ∃ l ∈ lits, l.index = i) := by
  induction lits generalizing sol with
  | nil =>
    obtain rfl := Option.some.inj h
    exact ⟨extends_refl _, fun l hl => absurd hl (by simp),
      fun i hi => Or.inl hi⟩
  | cons a t ih =>
    simp only [assignAll] at h
    cases ha : sol.assignLit a with
    | none => rw [ha] at h; exact absurd h (by simp)
    | some sol₂ =>
      rw [ha] at h
      obtain ⟨s1, s2, s3⟩ := assignLit_spec ha
      have hext1 : sol.Extends sol₂ :=
        assignLit_extends_of_unassigned ha (hunass a (by simp))
      have hdt := (List.pairwise_cons.mp hdist).2
      have hha := (List.pairwise_cons.mp hdist).1
      have hun2 : ∀ l ∈ t, sol₂.solution.getD l.index none = none := by
        intro l hl
        rw [s2 l.index (fun he => hha l hl he.symm)]
        exact hunass l (List.mem_cons_of_mem _ hl)
      obtain ⟨k1, k2, k3⟩ := ih h hdt hun2
      refine ⟨extends_trans hext1 k1, ?_, ?_⟩
      · intro l hl
        rcases List.mem_cons.mp hl with rfl | hl
        · exact satLit_extends s1 k1
        · exact k2 l hl
      · intro i hi
        rcases k3 i hi with hi2 | hi2
        · by_cases he : i = a.index
          · exact Or.inr ⟨a, by simp, he.symm⟩
          · rw [s2 i he] at hi2
            exact Or.inl hi2
        · obtain ⟨l, hl, hli⟩ := hi2
          exact Or.inr ⟨l, List.mem_cons_of_mem _ hl, hli⟩

/-! ### Occurrence-key persistence through propagation (Claim C1) -/

theorem cleanupFold_isSome (cl : List Lit) (cid : Nat)
    (occ : List (Lit × List Nat)) (m : Lit)
    (h : (alookup m occ).isSome) :
    (alookup m (cl.foldl (fun occ l =>
      match alookup l occ with
      | none => occ
      | some s => aupdate l (serase cid s) occ) occ)).isSome := by
  induction cl generalizing occ with
  | nil => exact h
  | cons a t ih =>
    rw [List.foldl_cons]
    cases ha : alookup a occ with
    | none => exact ih occ h
    | some s =>
      refine ih _ ?_
      rw [isSome_aupdate]
      exact Or.inr h

theorem rpGo_key_isSome (ids : List Nat) (c : Cnf) (m : Lit)
    (h : (alookup m c.occurrences).isSome) :
    (alookup m (Cnf.removePositiveGo ids c).occurrences).isSome := by
  induction ids generalizing c with
  | nil => exact h
  | cons cid rest ih =>
    rw [rpGo_cons]
    cases hv : alookup cid c.clauses with
    | none => exact ih c h
    | some clause =>
      refine ih _ ?_
      exact cleanupFold_isSome clause cid c.occurrences m h

theorem removePositive_key_isSome {c : Cnf} {l m : Lit} (hne : m ≠ l)
    (h : (alookup m c.occurrences).isSome) :
    (alookup m (c.removePositive l).occurrences).isSome := by
  unfold Cnf.removePositive
  cases hv : alookup l c.occurrences with
  | none => exact h
  | some occurs =>
    refine rpGo_key_isSome occurs _ m ?_
    show (alookup m (aerase l c.occurrences)).isSome
    rw [isSome_aerase]
    exact ⟨hne, h⟩

theorem rnGo_occurrences {l : Lit} (ids : List Nat) (c : Cnf) :
    (Cnf.removeNegationGo l ids c).2.occurrences = c.occurrences := by
  induction ids generalizing c with
  | nil => rfl
  | cons cid rest ih =>
    rw [rnGo_cons]
    cases hv : alookup cid c.clauses with
    | none => exact ih c
    | some clause =>
      dsimp only
      by_cases h0 : (serase l clause).length = 0
      · rw [if_pos h0]
      · rw [if_neg h0]
        rw [ih (rnStep cid clause l c), rnStep_occ]

theorem propagation_key_isSome {c c' : Cnf} {l q : Lit} {r : Option Nat}
    (hres : c.propagation l = (r, c'))
    (hq1 : q ≠ l) (hq2 : q ≠ l.neg)
    (hs : (alookup q c.occurrences).isSome) :
    (alookup q c'.occurrences).isSome := by
  unfold Cnf.propagation Cnf.removeNegation at hres
  have h1 : (alookup q (c.removePositive l).occurrences).isSome :=
    removePositive_key_isSome hq1 hs
  cases hv : alookup l.neg (c.removePositive l).occurrences with
  | none =>
    rw [hv] at hres
    obtain ⟨_, rfl⟩ := Prod.mk.injEq _ _ _ _ ▸ hres
    exact h1
  | some occurs =>
    rw [hv] at hres
    dsimp only at hres
    have hsnd := congrArg Prod.snd hres
    dsimp only at hsnd
    rw [← hsnd, rnGo_occurrences]
    show (alookup q (aerase l.neg (c.removePositive l).occurrences)).isSome
    rw [isSome_aerase]
    exact ⟨hq2, h1⟩

theorem propagation_of_absent {c : Cnf} {l : Lit}
    (h1 : alookup l c.occurrences = none)
    (h2 : alookup l.neg c.occurrences = none) :
    c.propagation l = (none, c) := by
  unfold Cnf.propagation Cnf.removePositive Cnf.removeNegation
  rw [h1]
  rw [h2]

theorem unitPropagation_some_mem {c : Cnf} {cid : Nat} {l : Lit} {c' : Cnf}
    (hres : c.unitPropagation cid = .ok (some l, c')) :
    alookup cid c.clauses = some [l] := by
  unfold Cnf.unitPropagation at hres
  split at hres
  · exact absurd (Prod.mk.injEq _ _ _ _ ▸ Res.ok.inj hres).1 (by simp)
  · rename_i clause hclause
    split at hres
    · rename_i l0
      dsimp only at hres
      split at hres
      · exact absurd hres (by simp)
      · obtain ⟨hl0, _⟩ := Prod.mk.injEq _ _ _ _ ▸ Res.ok.inj hres
        obtain rfl : l0 = l := Option.some.inj hl0
        exact hclause
    · exact absurd hres (by simp)

theorem unitPropagations_mem {fuel : Nat} {c : Cnf} {lits : List Lit}
    {c' : Cnf} (hres : Cnf.unitPropagations fuel c = .ok (lits, c'))
    (h1 : occSound c) (h2 : occComplete c) :
    (∀ l ∈ lits, ∃ id cl, alookup id c.clauses = some cl ∧ l ∈ cl) ∧
    List.Pairwise (fun a b => a.index ≠ b.index) lits := by
  induction fuel generalizing c lits with
  | zero => exact absurd hres (by simp [Cnf.unitPropagations])
  | succ fuel ih =>
    simp only [Cnf.unitPropagations] at hres
    split at hres
    · obtain ⟨rfl, rfl⟩ := Prod.mk.injEq _ _ _ _ ▸ Res.ok.inj hres
      exact ⟨fun l hl => absurd hl (by simp), by simp⟩
    · rename_i cid rest hunits
      split at hres
      · exact absurd hres (by simp)
      · exact absurd hres (by simp)
      · exact absurd hres (by simp)
      · rename_i optLit c1 hup
        split at hres
        · rename_i lits1 c2 hups
          obtain ⟨hl, rfl⟩ := Prod.mk.injEq _ _ _ _ ▸ Res.ok.inj hres
          cases optLit with
          | none =>
            obtain rfl := unitPropagation_ok_none hup
            simp only at hl
            subst hl
            obtain ⟨k1, k2⟩ := ih hups (by exact h1) (by exact h2)
            exact ⟨fun m hm => k1 m hm, k2⟩
          | some l =>
            simp only at hl
            subst hl
            obtain ⟨g1, g2, g3, g4, g5, g6, g7, g8⟩ :=
              unitPropagation_master_some hup h1 h2
            obtain ⟨k1, k2⟩ := ih hups (by exact g1) (by exact g2)
            constructor
            · intro m hm
              rcases List.mem_cons.mp hm with rfl | hm
              · exact ⟨cid, [m], unitPropagation_some_mem hup, by simp⟩
              · obtain ⟨id, cl1, hcl1, hmem1⟩ := k1 m hm
                obtain ⟨cl, hcl, hsub⟩ := g6 id cl1 (by exact hcl1)
                exact ⟨id, cl, hcl, hsub m hmem1⟩
            · refine List.pairwise_cons.mpr ⟨?_, k2⟩
              intro m hm
              obtain ⟨id, cl1, hcl1, hmem1⟩ := k1 m hm
              exact fun he => g8 id cl1 (by exact hcl1) m hmem1 he.symm
        · exact absurd hres (by simp)
        · exact absurd hres (by simp)
        · exact absurd hres (by simp)

/-! ### Clean-variable invariant maintenance (Claim C1) -/

theorem solDefined_of_satLit {sol : PartialSolution} {l : Lit}
    (h : sol.satLit l = true) : solDefined sol l.index := by
  unfold PartialSolution.satLit at h
  simp only [decide_eq_true_eq] at h
  unfold solDefined
  rw [h]
  rfl

theorem getD_none_of_not_defined {sol : PartialSolution} {i : Nat}
    (h : ¬ solDefined sol i) : sol.solution.getD i none = none := by
  unfold solDefined at h
  cases hv : sol.solution.getD i none with
  | none => rfl
  | some b =>
    rw [hv] at h
    exact absurd rfl h

theorem varClean_new (c : Cnf) (n : Nat) :
    varClean c (PartialSolution.new n) := by
  intro i hi
  exfalso
  have h : ((List.replicate n (none : Option Bool)).getD i none).isSome =
      true := hi
  rw [getD_replicate_none] at h
  exact absurd h (by simp)

theorem varClean_propagation {c c' : Cnf} {l : Lit}
    {sol sol₁ : PartialSolution}
    (hres : c.propagation l = (none, c'))
    (h1 : occSound c) (h2 : occComplete c)
    (hvc : varClean c sol)
    (hd : ∀ i, solDefined sol₁ i → solDefined sol i ∨ i = l.index) :
    varClean c' sol₁ := by
  obtain ⟨g1, g2, g3, g4, g5, g6, g7, g8⟩ := propagation_master hres h1 h2
  intro i hi
  rcases hd i hi with hdef | rfl
  · obtain ⟨hcl, hocc⟩ := hvc i hdef
    constructor
    · intro cid cl' hcl' m hm
      obtain ⟨cl, hclc, hsub⟩ := g6 cid cl' hcl'
      exact hcl cid cl hclc m (hsub m hm)
    · intro b
      exact g7 _ (hocc b)
  · constructor
    · intro cid cl' hcl' m hm
      exact g8 cid cl' hcl' m hm
    · intro b
      rcases eq_or_neg_of_index_eq
          (show (⟨l.index, b⟩ : Lit).index = l.index from rfl) with he | he
      · rw [he]
        exact g3
      · rw [he]
        exact g4

theorem varClean_unitPs {fuel : Nat} {c : Cnf} {lits : List Lit} {c' : Cnf}
    {sol sol₁ : PartialSolution}
    (hres : Cnf.unitPropagations fuel c = .ok (lits, c'))
    (h1 : occSound c) (h2 : occComplete c)
    (hvc : varClean c sol)
    (hd : ∀ i, solDefined sol₁ i →
      solDefined sol i ∨ ∃ l ∈ lits, l.index = i) :
    varClean c' sol₁ := by
  obtain ⟨k1, k2, k3, k4, k5, k6⟩ := unitPropagations_master hres h1 h2
  intro i hi
  rcases hd i hi with hdef | ⟨l, hl, rfl⟩
  · obtain ⟨hcl, hocc⟩ := hvc i hdef
    constructor
    · intro cid cl' hcl' m hm
      obtain ⟨cl, hclc, hsub⟩ := k4 cid cl' hcl'
      exact hcl cid cl hclc m (hsub m hm)
    · intro b
      exact k5 _ (hocc b)
  · obtain ⟨hk1, hk2, hk3⟩ := k6 l hl
    constructor
    · intro cid cl' hcl' m hm
      exact hk3 cid cl' hcl' m hm
    · intro b
      rcases eq_or_neg_of_index_eq
          (show (⟨l.index, b⟩ : Lit).index = l.index from rfl) with he | he
      · rw [he]
        exact hk1
      · rw [he]
        exact hk2

/-! ### Pure-literal elimination phase (Claim C1) -/

theorem purePropagate_master {P : List Lit} {c : Cnf} {sol : PartialSolution}
    {c' : Cnf} {sol' : PartialSolution}
    (hres : purePropagate P c sol = .ok (c', sol'))
    (h1 : occSound c) (h2 : occComplete c) (hvc : varClean c sol)
    (hP : ∀ q ∈ P, ((alookup q c.occurrences).isSome ∧
        alookup q.neg c.occurrences = none) ∨ sol.satLit q = true) :
    occSound c' ∧ occComplete c' ∧ varClean c' sol' ∧ sol.Extends sol' ∧
    (∀ S : Lit → Prop, (∀ m, sol'.satLit m = true → S m) →
      (∀ id cl, alookup id c'.clauses = some cl → ∃ m ∈ cl, S m) →
      ∀ id cl, alookup id c.clauses = some cl → ∃ m ∈ cl, S m) ∧
    (∀ m, alookup m c.occurrences = none →
      alookup m c'.occurrences = none) := by
  induction P generalizing c sol with
  | nil =>
    simp only [purePropagate] at hres
    obtain ⟨rfl, rfl⟩ := Prod.mk.injEq _ _ _ _ ▸ Res.ok.inj hres
    exact ⟨h1, h2, hvc, extends_refl _, fun S _ hall => hall,
      fun m hm => hm⟩
  | cons q t ih =>
    simp only [purePropagate] at hres
    cases ha : sol.assignLit q with
    | none =>
      rw [ha] at hres
      exact absurd hres (by simp)
    | some sol₁ =>
      rw [ha] at hres
      obtain ⟨s1, s2, s3⟩ := assignLit_spec ha
      cases hp : c.propagation q with
      | mk r c₁ =>
        rw [hp] at hres
        cases r with
        | some cid =>
          dsimp only at hres
          exact absurd hres (by simp)
        | none =>
          dsimp only at hres
          rcases hP q (by simp) with ⟨hqs, hqn⟩ | hqsat
          · -- the pure literal is still unassigned: fresh assignment
            have hundef : ¬ solDefined sol q.index := by
              intro hdef
              have hk := (hvc q.index hdef).2 q.positive
              have he : (⟨q.index, q.positive⟩ : Lit) = q := rfl
              rw [he] at hk
              rw [hk] at hqs
              exact absurd hqs (by simp)
            have hext1 : sol.Extends sol₁ :=
              assignLit_extends_of_unassigned ha
                (getD_none_of_not_defined hundef)
            obtain ⟨g1, g2, g3, g4, g5, g6, g7, g8⟩ :=
              propagation_master hp h1 h2
            have hvc₁ : varClean c₁ sol₁ := by
              refine varClean_propagation hp h1 h2 hvc ?_
              intro i hi
              by_cases he : i = q.index
              · exact Or.inr he
              · refine Or.inl ?_
                unfold solDefined at hi ⊢
                rw [s2 i he] at hi
                exact hi
            have hP₁ : ∀ q' ∈ t, ((alookup q' c₁.occurrences).isSome ∧
                alookup q'.neg c₁.occurrences = none) ∨
                sol₁.satLit q' = true := by
              intro q' hq'
              rcases hP q' (List.mem_cons_of_mem _ hq') with ⟨hs', hn'⟩ |
                  hsat'
              · by_cases heq : q' = q
                · subst heq
                  exact Or.inr s1
                · have hneq2 : q' ≠ q.neg := by
                    intro he
                    rw [he] at hs'
                    rw [hqn] at hs'
                    exact absurd hs' (by simp)
                  exact Or.inl ⟨propagation_key_isSome hp heq hneq2 hs',
                    g7 _ hn'⟩
              · exact Or.inr (satLit_extends hsat' hext1)
            obtain ⟨k1, k2, k3, k4, k5, k6⟩ := ih hres g1 g2 hvc₁ hP₁
            refine ⟨k1, k2, k3, extends_trans hext1 k4, ?_, ?_⟩
            · intro S hS hall id cl hcl
              have hSq : S q := hS q (satLit_extends s1 k4)
              exact g5 S hSq (k5 S hS hall) id cl hcl
            · intro m hm
              exact k6 m (g7 m hm)
          · -- the pure literal is already satisfied: the state is unchanged
            have hdef : solDefined sol q.index := solDefined_of_satLit hqsat
            have hkey := (hvc q.index hdef).2
            have hkq : alookup q c.occurrences = none := by
              have he : (⟨q.index, q.positive⟩ : Lit) = q := rfl
              have := hkey q.positive
              rw [he] at this
              exact this
            have hkqn : alookup q.neg c.occurrences = none := by
              have he : (⟨q.index, !q.positive⟩ : Lit) = q.neg := rfl
              have := hkey (!q.positive)
              rw [he] at this
              exact this
            have hcc : c₁ = c := by
              have habs := propagation_of_absent hkq hkqn
              rw [hp] at habs
              exact (Prod.mk.injEq _ _ _ _ ▸ habs).2
            subst hcc
            have hext1 : sol.Extends sol₁ := assignLit_extends_of_sat ha hqsat
            have hvc₁ : varClean c₁ sol₁ := by
              intro i hi
              refine hvc i ?_
              by_cases he : i = q.index
              · subst he
                exact hdef
              · unfold solDefined at hi ⊢
                rw [s2 i he] at hi
                exact hi
            have hP₁ : ∀ q' ∈ t, ((alookup q' c₁.occurrences).isSome ∧
                alookup q'.neg c₁.occurrences = none) ∨
                sol₁.satLit q' = true := by
              intro q' hq'
              rcases hP q' (List.mem_cons_of_mem _ hq') with hleft | hsat'
              · exact Or.inl hleft
              · exact Or.inr (satLit_extends hsat' hext1)
            obtain ⟨k1, k2, k3, k4, k5, k6⟩ := ih hres h1 h2 hvc₁ hP₁
            exact ⟨k1, k2, k3, extends_trans hext1 k4, k5, k6⟩

/-! ### Soundness of the plain search driver (Claim C1) -/

theorem dpllAux_sound {σ : List Lit → Option Lit}
    (hσ : ∀ ks l, σ ks = some l → l ∈ ks) :
    ∀ (fuel : Nat) {c : Cnf} {sol sol' : PartialSolution},
    dpllAux σ fuel c sol = .ok sol' →
    occSound c → occComplete c → varClean c sol →
    sol.Extends sol' ∧
    ∀ id cl, alookup id c.clauses = some cl →
      ∃ m ∈ cl, sol'.satLit m = true := by
  intro fuel
  induction fuel with
  | zero =>
    intro c sol sol' hres h1 h2 hvc
    exact absurd hres (by simp [dpllAux])
  | succ fuel ih =>
    intro c sol sol' hres h1 h2 hvc
    simp only [dpllAux] at hres
    split at hres
    · rename_i hemp
      obtain rfl := Res.ok.inj hres
      rw [List.isEmpty_iff] at hemp
      refine ⟨extends_refl _, ?_⟩
      intro id cl hcl
      rw [hemp] at hcl
      exact absurd hcl (by simp [alookup])
    · rename_i hnemp
      split at hres
      · exact absurd hres (by simp)
      · exact absurd hres (by simp)
      · exact absurd hres (by simp)
      · rename_i unitLits c2 hups
        obtain ⟨u1, u2, u3, u4, u5, u6⟩ := unitPropagations_master hups h1 h2
        obtain ⟨m1, m2⟩ := unitPropagations_mem hups h1 h2
        split at hres
        · exact absurd hres (by simp)
        · rename_i sol₁ hassign
          have hun : ∀ l ∈ unitLits,
              sol.solution.getD l.index none = none := by
            intro l hl
            refine getD_none_of_not_defined ?_
            intro hdef
            obtain ⟨id, cl, hcl, hmem⟩ := m1 l hl
            exact (hvc l.index hdef).1 id cl hcl l hmem rfl
          obtain ⟨a1, a2, a3⟩ := assignAll_facts hassign m2 hun
          have hvc₁ : varClean c2 sol₁ := by
            refine varClean_unitPs hups h1 h2 hvc ?_
            intro i hi
            rcases a3 i hi with hd | hd
            · exact Or.inl hd
            · exact Or.inr hd
          split at hres
          · exact absurd hres (by simp)
          · exact absurd hres (by simp)
          · exact absurd hres (by simp)
          · rename_i c3 sol₂ hpure
            have hP : ∀ q ∈ pureLits c2,
                ((alookup q c2.occurrences).isSome ∧
                  alookup q.neg c2.occurrences = none) ∨
                sol₁.satLit q = true := by
              intro q hq
              refine Or.inl ?_
              unfold pureLits at hq
              obtain ⟨hmem, hnone⟩ := List.mem_filter.mp hq
              constructor
              · exact (alookup_isSome_iff_mem _ _).mpr hmem
              · exact Option.isNone_iff_eq_none.mp hnone
            obtain ⟨p1, p2, p3, p4, p5, p6⟩ :=
              purePropagate_master hpure u1 u2 hvc₁ hP
            split at hres
            · rename_i hocc
              split at hres
              · rename_i hnum
                obtain rfl := Res.ok.inj hres
                have hcl3 : c3.clauses = [] := by
                  unfold Cnf.numClause at hnum
                  exact List.length_eq_zero.mp hnum
                have hall3 : ∀ id cl, alookup id c3.clauses = some cl →
                    ∃ m ∈ cl, sol₂.satLit m = true := by
                  intro id cl hcl
                  rw [hcl3] at hcl
                  exact absurd hcl (by simp [alookup])
                refine ⟨extends_trans a1 p4, ?_⟩
                have hc2 := p5 (fun m => sol₂.satLit m = true)
                  (fun m hm => hm) hall3
                refine u3 (fun m => sol₂.satLit m = true) ?_ hc2
                intro l hl
                exact satLit_extends (a2 l hl) p4
              · exact absurd hres (by simp)
            · rename_i hocc
              split at hres
              · exact absurd hres (by simp)
              · rename_i guess hguess
                have hgmem : guess ∈ c3.occurrences.map Prod.fst :=
                  hσ _ _ hguess
                have hgs : (alookup guess c3.occurrences).isSome :=
                  (alookup_isSome_iff_mem _ _).mpr hgmem
                have hgundef : ¬ solDefined sol₂ guess.index := by
                  intro hdef
                  have hk := (p3 guess.index hdef).2 guess.positive
                  have he : (⟨guess.index, guess.positive⟩ : Lit) = guess :=
                    rfl
                  rw [he] at hk
                  rw [hk] at hgs
                  exact absurd hgs (by simp)
                split at hres
                · exact absurd hres (by simp)
                · rename_i sol₃ hassign2
                  have hext3 : sol₂.Extends sol₃ :=
                    assignLit_extends_of_unassigned hassign2
                      (getD_none_of_not_defined hgundef)
                  have hsat3 : sol₃.satLit guess = true :=
                    (assignLit_spec hassign2).1
                  obtain ⟨s1', s2', s3'⟩ := assignLit_spec hassign2
                  split at hres
                  · exact absurd hres (by simp)
                  · rename_i c4 hprop
                    obtain ⟨q1, q2, q3, q4, q5, q6, q7, q8⟩ :=
                      propagation_master hprop p1 p2
                    have hvc₃ : varClean c4 sol₃ := by
                      refine varClean_propagation hprop p1 p2 p3 ?_
                      intro i hi
                      by_cases he : i = guess.index
                      · exact Or.inr he
                      · refine Or.inl ?_
                        unfold solDefined at hi ⊢
                        rw [s2' i he] at hi
                        exact hi
                    have transferChain :
                        ∀ solF : PartialSolution, sol₃.Extends solF →
                        (∀ id cl, alookup id c4.clauses = some cl →
                          ∃ m ∈ cl, solF.satLit m = true) →
                        sol.Extends solF ∧
                        ∀ id cl, alookup id c.clauses = some cl →
                          ∃ m ∈ cl, solF.satLit m = true := by
                      intro solF hextF hallF
                      have hSg : solF.satLit guess = true :=
                        satLit_extends hsat3 hextF
                      have hc3 := q5 (fun m => solF.satLit m = true)
                        hSg hallF
                      have hc2 := p5 (fun m => solF.satLit m = true)
                        (fun m hm =>
                          satLit_extends hm (extends_trans hext3 hextF))
                        hc3
                      refine ⟨extends_trans a1 (extends_trans p4
                        (extends_trans hext3 hextF)), ?_⟩
                      refine u3 (fun m => solF.satLit m = true) ?_ hc2
                      intro l hl
                      exact satLit_extends (a2 l hl)
                        (extends_trans p4 (extends_trans hext3 hextF))
                    split at hres
                    · rename_i hboth
                      obtain rfl := Res.ok.inj hres
                      refine transferChain _ (extends_refl _) ?_
                      intro id cl hcl
                      have hcl4 : c4.clauses = [] :=
                        List.isEmpty_iff.mp hboth.1
                      rw [hcl4] at hcl
                      exact absurd hcl (by simp [alookup])
                    · rename_i hnboth
                      split at hres
                      · rename_i s hrec
                        obtain rfl := Res.ok.inj hres
                        obtain ⟨r1, r2⟩ := ih hrec q1 q2 hvc₃
                        exact transferChain _ r1 r2
                      · exact absurd hres (by simp)
                      · exact absurd hres (by simp)
                      · rename_i e hrec1
                        split at hres
                        · exact absurd hres (by simp)
                        · rename_i c5 hprop2
                          split at hres
                          · exact absurd hres (by simp)
                          · rename_i sol₄ hassign3
                            obtain ⟨w1, w2, w3, w4, w5, w6, w7, w8⟩ :=
                              propagation_master hprop2 p1 p2
                            have hext4 : sol₂.Extends sol₄ :=
                              assignLit_extends_of_unassigned hassign3
                                (getD_none_of_not_defined hgundef)
                            have hsat4 : sol₄.satLit guess.neg = true :=
                              (assignLit_spec hassign3).1
                            obtain ⟨t1', t2', t3'⟩ := assignLit_spec hassign3
                            have hvc₄ : varClean c5 sol₄ := by
                              refine varClean_propagation hprop2 p1 p2 p3 ?_
                              intro i hi
                              by_cases he : i = guess.index
                              · exact Or.inr he
                              · refine Or.inl ?_
                                unfold solDefined at hi ⊢
                                rw [t2' i he] at hi
                                exact hi
                            obtain ⟨r1, r2⟩ := ih hres w1 w2 hvc₄
                            have hSg : sol'.satLit guess.neg = true :=
                              satLit_extends hsat4 r1
                            have hc3 := w5 (fun m => sol'.satLit m = true)
                              hSg r2
                            have hc2 := p5 (fun m => sol'.satLit m = true)
                              (fun m hm =>
                                satLit_extends hm (extends_trans hext4 r1))
                              hc3
                            refine ⟨extends_trans a1 (extends_trans p4
                              (extends_trans hext4 r1)), ?_⟩
                            refine u3 (fun m => sol'.satLit m = true) ?_ hc2
                            intro l hl
                            exact satLit_extends (a2 l hl)
                              (extends_trans p4 (extends_trans hext4 r1))

theorem foldl_addClause_facts (L : List (List Lit)) {c0 : Cnf}
    (hb : BuiltA c0) :
    (∀ id v, alookup id c0.clauses = some v →
      alookup id (L.foldl Cnf.addClause c0).clauses = some v) ∧
    (∀ cl ∈ L, ∃ id,
      alookup id (L.foldl Cnf.addClause c0).clauses = some (mkSet cl)) := by
  induction L generalizing c0 with
  | nil => exact ⟨fun id v h => h, fun cl hcl => absurd hcl (by simp)⟩
  | cons a t ih =>
    rw [List.foldl_cons]
    obtain ⟨ih1, ih2⟩ := ih (BuiltA.add a hb)
    have hk := (builtA_inv hb).1
    have hpres : ∀ id v, alookup id c0.clauses = some v →
        alookup id (c0.addClause a).clauses = some v := by
      intro id v h
      have hlt : id < c0.clauses.length := (hk.2 id).mp (by simp [h])
      have hne : id ≠ c0.clauses.length := by omega
      show alookup id
        (aupdate c0.clauses.length (mkSet a) c0.clauses) = some v
      rw [alookup_aupdate_ne _ _ hne]
      exact h
    refine ⟨fun id v h => ih1 id v (hpres id v h), ?_⟩
    intro cl hcl
    rcases List.mem_cons.mp hcl with rfl | hcl
    · refine ⟨c0.clauses.length, ih1 _ _ ?_⟩
      show alookup c0.clauses.length
        (aupdate c0.clauses.length (mkSet cl) c0.clauses) = some (mkSet cl)
      exact alookup_aupdate_self _ _ _
    · exact ih2 cl hcl

theorem clausesFrom_mem_parse {f : List (List Int)} {out : List (List Lit)}
    (h : f.foldr (fun c acc => match clauseFromInts c, acc with
      | some cl, some t => some (cl :: t)
      | _, _ => none) (some []) = some out) :
    ∀ ci ∈ f, ∃ c ∈ out, clauseFromInts ci = some c := by
  induction f generalizing out with
  | nil => simp
  | cons a t ih =>
    simp only [List.foldr] at h
    cases hd : clauseFromInts a with
    | none => rw [hd] at h; simp at h
    | some cl =>
      rw [hd] at h
      cases ht : t.foldr (fun c acc => match clauseFromInts c, acc with
        | some cl, some t => some (cl :: t)
        | _, _ => none) (some []) with
      | none => rw [ht] at h; simp at h
      | some tl =>
        rw [ht] at h
        obtain rfl : cl :: tl = out := Option.some.inj h
        intro ci hci
        rcases List.mem_cons.mp hci with rfl | hci
        · exact ⟨cl, by simp, hd⟩
        · obtain ⟨c, hc1, hc2⟩ := ih ht ci hci
          exact ⟨c, List.mem_cons_of_mem _ hc1, hc2⟩

/-- C1: whenever the plain DPLL driver returns success on a loaded clause
list, the assignment it returns satisfies every input clause: each clause
holds a literal whose variable is assigned the literal's polarity.  Stated
for every resolution `σ` of the random guessing source that picks an
element of the key list it is given, and any recursion fuel. -/
theorem c1_dpll_soundness (σ : List Lit → Option Lit)
    (hσ : ∀ ks l, σ ks = some l → l ∈ ks)
    (fuel : Nat) (f : List (List Int)) (sol : PartialSolution)
    (hres : dpllRun σ fuel f = .ok sol) :
    ∀ ci ∈ f, ∃ v ∈ ci, ∃ l, Lit.fromDimacs v = some l ∧
      sol.satLit l = true := by
  unfold dpllRun at hres
  cases hp : clausesFrom f with
  | none =>
    rw [hp] at hres
    exact absurd hres (by simp)
  | some cls =>
    rw [hp] at hres
    unfold dpll at hres
    have hb := builtA_fromClauses cls
    obtain ⟨hk, hidl, h1, h2⟩ := builtA_inv hb
    obtain ⟨hext, hall⟩ := dpllAux_sound hσ fuel hres h1 h2
      (varClean_new _ _)
    obtain ⟨fc1, fc2⟩ := foldl_addClause_facts cls.clauses
      (BuiltA.base cls.nVars cls.clauses.length)
    unfold clausesFrom at hp
    cases hfold : f.foldr (fun c acc => match clauseFromInts c, acc with
      | some cl, some t => some (cl :: t)
      | _, _ => none) (some []) with
    | none =>
      rw [hfold] at hp
      simp at hp
    | some out =>
      rw [hfold] at hp
      obtain rfl := (Option.some.inj hp).symm
      intro ci hci
      obtain ⟨cl, hclmem, hparse⟩ := clausesFrom_mem_parse hfold ci hci
      obtain ⟨id, hid⟩ := fc2 cl hclmem
      obtain ⟨m, hm, hsat⟩ := hall id (mkSet cl) hid
      have hmcl : m ∈ cl := (mem_mkSet _ _).mp hm
      obtain ⟨v, hv, hvd⟩ := clauseFromInts_mem hparse m hmcl
      exact ⟨v, hv, m, hvd, hsat⟩

/-- Witness for the C1 theorem at the input [[1]] with the head-of-list
resolution of the random source: the returned assignment sets variable 1
true and satisfies the clause. -/
theorem c1_dpll_soundness_witness :
    ∃ v ∈ [(1 : Int)], ∃ l, Lit.fromDimacs v = some l ∧
      PartialSolution.satLit ⟨[some true], []⟩ l = true :=
  c1_dpll_soundness headOracle (fun ks l h => headOracle_mem ks l h)
    10 [[1]] ⟨[some true], []⟩ (by decide) [1] (by simp)
